import Mathlib

/-!
# Verification of the claw-diary event capture and derivation pipeline

This file gives a shallow embedding in Lean 4 of the core data model and
algorithms of the claw-diary repository (collector, sanitizer, cost
estimator, aggregator, analytics), together with theorems settling the
stated correctness properties.

Conventions of the embedding:
* JavaScript numbers are modelled as `ℚ` (for costs/averages) or `Int`
  (for millisecond durations and token counts where only integers occur).
* JavaScript strings are modelled as `String` / `List Char`; the regular
  expressions of the sanitizer are compiled by hand into deterministic
  matchers over `List Char` (the patterns involved need no backtracking,
  as proved by the disjointness of the character classes involved).
* `Date` parsing (`new Date(ts).getTime()`, `getDay()`, `getHours()`) is
  modelled by explicit function parameters, since timestamps are opaque
  ISO-8601 strings ordered by string comparison in the source.
* File contents are passed explicitly (`Option String` for a possibly
  missing file); `JSON.parse` of an event line is a function parameter.
-/

namespace ClawDiary

/-! ## JSON-like values (the shape of hook payloads and toolArgs) -/
inductive Json where
  | str : String → Json
  | num : Int → Json
  | bool : Bool → Json
  | null : Json
  | arr : List Json → Json
  | obj : List (String × Json) → Json

/-! ## Character classes used by the sanitizer regexes

`SENSITIVE_PATTERNS` in collector.ts uses the classes `\s`, `\w`,
`[\w\-./]`, `["']`, `[:=]`, `[a-zA-Z0-9]`, `[\w\-]`.  We model the ASCII
part of `\s` (the inputs of interest are ASCII). -/
def lowerC (c : Char) : Char :=
  if 'A' ≤ c ∧ c ≤ 'Z' then Char.ofNat (c.toNat + 32) else c

def isSpaceC (c : Char) : Bool :=
  c = ' ' || c = '\t' || c = '\n' || c = '\r' || c = Char.ofNat 11 || c = Char.ofNat 12

def isWordC (c : Char) : Bool :=
  ('a' ≤ c && c ≤ 'z') || ('A' ≤ c && c ≤ 'Z') || ('0' ≤ c && c ≤ '9') || c = '_'

def isAlnumC (c : Char) : Bool :=
  ('a' ≤ c && c ≤ 'z') || ('A' ≤ c && c ≤ 'Z') || ('0' ≤ c && c ≤ '9')

/-- the value class `[\w\-./]` of the assignment-style patterns -/
def isValC (c : Char) : Bool := isWordC c || c = '-' || c = '.' || c = '/'

/-- the class `[\w\-]` of the `xoxb-` pattern -/
def isSlackC (c : Char) : Bool := isWordC c || c = '-'

def isQuoteC (c : Char) : Bool := c = '"' || c = '\''

def sepC (c : Char) : Bool := c = ':' || c = '='

/-! ## Deterministic matchers for the nine sensitive patterns

Each matcher tries to match its pattern at the head of the character
list; on success it returns the remainder after the match. -/
/-- case-insensitive literal (`/i` flag); the literal is stored lowercase -/
def litCI : List Char → List Char → Option (List Char)
  | [], s => some s
  | _ :: _, [] => none
  | k :: ks, c :: cs => if lowerC c = k then litCI ks cs else none

/-- case-sensitive literal -/
def litCS : List Char → List Char → Option (List Char)
  | [], s => some s
  | _ :: _, [] => none
  | k :: ks, c :: cs => if c = k then litCS ks cs else none

/-- `["']?` — consume one quote if present -/
def dropQuote : List Char → List Char
  | [] => []
  | c :: cs => if isQuoteC c then cs else c :: cs

/-- `[\w\-./]+` — require at least one value char, consume greedily -/
def takeVal : List Char → Option (List Char)
  | [] => none
  | c :: cs => if isValC c then some (List.dropWhile isValC cs) else none

/-- alternation of keyword literals (mutually prefix-free in each pattern) -/
def tryKeywords : List (List Char) → List Char → Option (List Char)
  | [], _ => none
  | k :: ks, s =>
    match litCI k s with
    | some r => some r
    | none => tryKeywords ks s

/-- `[_-]?` — consume one underscore or dash if present -/
def dropDashU : List Char → List Char
  | [] => []
  | c :: cs => if c = '_' || c = '-' then cs else c :: cs

/-- the keyword part `(?:api[_-]?key|apikey)` of pattern 1 (the second
alternative is subsumed by the first, `[_-]?` being optional) -/
def apiKeyword (s : List Char) : Option (List Char) :=
  match litCI "api".data s with
  | none => none
  | some s1 => litCI "key".data (dropDashU s1)

/-- the shared shape `KEYWORDS\s*[:=]\s*["']?[\w\-./]+["']?` of patterns 1–4 -/
def matchAssign (kwm : List Char → Option (List Char)) (s : List Char) :
    Option (List Char) :=
  match kwm s with
  | none => none
  | some s1 =>
    match List.dropWhile isSpaceC s1 with
    | [] => none
    | c :: s3 =>
      if sepC c then
        match takeVal (dropQuote (List.dropWhile isSpaceC s3)) with
        | none => none
        | some s6 => some (dropQuote s6)
      else none

/-- `PRE cls{lo,}` (greedy) — patterns 5 (`sk-`, ≥20) and 8 (`xoxb-`, ≥1) -/
def matchRun (pre : List Char) (cls : Char → Bool) (lo : Nat) (s : List Char) :
    Option (List Char) :=
  match litCS pre s with
  | none => none
  | some t =>
    if lo ≤ (List.takeWhile cls t).length then some (List.dropWhile cls t) else none

/-- `PRE cls{n}` (exactly n) — patterns 6 and 7 (`ghp_`/`gho_`, 36 chars) -/
def matchExact (pre : List Char) (cls : Char → Bool) (n : Nat) (s : List Char) :
    Option (List Char) :=
  match litCS pre s with
  | none => none
  | some t =>
    if n ≤ t.length ∧ (List.take n t).all cls then some (List.drop n t) else none

/-- the lazy `[\s\S]*?-----END` tail of the PEM pattern: find the earliest
occurrence of `-----END` and consume up to and including it -/
def searchEnd : List Char → Option (List Char)
  | [] => none
  | c :: cs =>
    match litCS "-----END".data (c :: cs) with
    | some r => some r
    | none => searchEnd cs

/-- `\s+` — require at least one space char, consume greedily -/
def many1Space : List Char → Option (List Char)
  | [] => none
  | c :: cs => if isSpaceC c then some (List.dropWhile isSpaceC cs) else none

/-- `(?:RSA\s+)?` with JS backtracking: the group is taken only when both
`RSA` and at least one following space char match (otherwise the regex
engine retries with the empty group, which fails on the following literal
exactly when our fallback does) -/
def rsaOpt (s : List Char) : List Char :=
  match litCS "RSA".data s with
  | none => s
  | some t =>
    match t with
    | [] => s
    | c :: cs => if isSpaceC c then List.dropWhile isSpaceC cs else s

/-- pattern 9: `-----BEGIN\s+(?:RSA\s+)?PRIVATE\s+KEY-----[\s\S]*?-----END` -/
def matchPem (s : List Char) : Option (List Char) :=
  match litCS "-----BEGIN".data s with
  | none => none
  | some s1 =>
    match many1Space s1 with
    | none => none
    | some s2 =>
      match litCS "PRIVATE".data (rsaOpt s2) with
      | none => none
      | some s3 =>
        match many1Space s3 with
        | none => none
        | some s4 =>
          match litCS "KEY-----".data s4 with
          | none => none
          | some s5 => searchEnd s5

/-- pattern 1: `(?:api[_-]?key|apikey)\s*[:=]\s*["']?[\w\-./]+["']?` (gi) -/
def pat1 : List Char → Option (List Char) := matchAssign apiKeyword

/-- pattern 2: `(?:secret|token|password|passwd|pwd)\s*[:=]\s*["']?[\w\-./]+["']?` (gi) -/
def pat2 : List Char → Option (List Char) :=
  matchAssign (tryKeywords ["secret".data, "token".data, "password".data,
    "passwd".data, "pwd".data])

/-- pattern 3: `(?:authorization|bearer)\s*[:=]\s*["']?[\w\-./]+["']?` (gi) -/
def pat3 : List Char → Option (List Char) :=
  matchAssign (tryKeywords ["authorization".data, "bearer".data])

/-- pattern 4: `(?:aws_access_key_id|aws_secret_access_key)\s*[:=]\s*["']?[\w\-./]+["']?` (gi) -/
def pat4 : List Char → Option (List Char) :=
  matchAssign (tryKeywords ["aws_access_key_id".data, "aws_secret_access_key".data])

/-- pattern 5: `sk-[a-zA-Z0-9]{20,}` (g) -/
def pat5 : List Char → Option (List Char) := matchRun "sk-".data isAlnumC 20

/-- pattern 6: `ghp_[a-zA-Z0-9]{36}` (g) -/
def pat6 : List Char → Option (List Char) := matchExact "ghp_".data isAlnumC 36

/-- pattern 7: `gho_[a-zA-Z0-9]{36}` (g) -/
def pat7 : List Char → Option (List Char) := matchExact "gho_".data isAlnumC 36

/-- pattern 8: `xoxb-[\w\-]+` (g) -/
def pat8 : List Char → Option (List Char) := matchRun "xoxb-".data isSlackC 1

/-- pattern 9: the private-key PEM block pattern (g) -/
def pat9 : List Char → Option (List Char) := matchPem

/-- the replacement text `'[REDACTED]'` -/
def redactedMarker : List Char := "[REDACTED]".data

/-- `String.prototype.replace` with a `/g` regex and a fixed replacement
string: scan left to right; at each position, if the pattern matches,
emit the marker and continue after the match, otherwise keep the char and
advance by one.  (The length test is a termination guard; every matcher
consumes at least one character on success, so the `else` arm is dead.) -/
def replaceAllGo (m : List Char → Option (List Char)) : Nat → List Char → List Char
  | _, [] => []
  | 0, c :: cs => c :: cs
  | fuel + 1, c :: cs =>
    match m (c :: cs) with
    | some rest =>
      if rest.length ≤ cs.length then redactedMarker ++ replaceAllGo m fuel rest
      else c :: replaceAllGo m fuel cs
    | none => c :: replaceAllGo m fuel cs

def replaceAll (m : List Char → Option (List Char)) (s : List Char) : List Char :=
  replaceAllGo m s.length s

/-- the ordered list of the nine `SENSITIVE_PATTERNS` -/
def SENSITIVE_PATTERNS : List (List Char → Option (List Char)) :=
  [pat1, pat2, pat3, pat4, pat5, pat6, pat7, pat8, pat9]

/-- the string branch of `sanitizeValue`: apply each pattern's global
replace in sequence, each pass operating on the previous pass's output -/
def sanitizeChars (s : List Char) : List Char :=
  SENSITIVE_PATTERNS.foldl (fun acc m => replaceAll m acc) s

def sanitizeString (s : String) : String := String.mk (sanitizeChars s.data)

/-! ## The key denylist of `sanitizeObject` -/
def upperC (c : Char) : Char :=
  if 'a' ≤ c ∧ c ≤ 'z' then Char.ofNat (c.toNat - 32) else c

/-- `key.toUpperCase()` (ASCII model) -/
def toUpperStr (s : String) : String := String.mk (s.data.map upperC)

def SENSITIVE_ENV_KEYS : List String :=
  ["API_KEY", "SECRET", "TOKEN", "PASSWORD", "PASSWD", "PWD",
   "AWS_ACCESS_KEY_ID", "AWS_SECRET_ACCESS_KEY", "PRIVATE_KEY",
   "DATABASE_URL", "DB_PASSWORD", "OPENAI_API_KEY", "ANTHROPIC_API_KEY",
   "GITHUB_TOKEN", "SLACK_TOKEN", "STRIPE_KEY"]

/-- `upperKey.includes(sub)` — substring test -/
def hasSub (hay sub : List Char) : Bool := decide (sub <:+: hay)

/-- the key test of `sanitizeObject`:
`SENSITIVE_ENV_KEYS.has(upperKey) || upperKey.includes('SECRET') || ...` -/
def isSensitiveKey (key : String) : Bool :=
  let u := toUpperStr key
  SENSITIVE_ENV_KEYS.contains u || hasSub u.data "SECRET".data ||
    hasSub u.data "PASSWORD".data || hasSub u.data "TOKEN".data ||
    hasSub u.data "KEY".data

/-! ## `sanitizeValue` / `sanitizeObject` -/
mutual

def sanitizeValue : Json → Json
  | .str s => .str (sanitizeString s)
  | .num n => .num n
  | .bool b => .bool b
  | .null => .null
  | .arr xs => .arr (sanitizeArr xs)
  | .obj fs => .obj (sanitizeObject fs)
termination_by structural j => j

def sanitizeArr : List Json → List Json
  | [] => []
  | x :: xs => sanitizeValue x :: sanitizeArr xs
termination_by structural l => l

def sanitizeObject : List (String × Json) → List (String × Json)
  | [] => []
  | (k, v) :: fs =>
    (if isSensitiveKey k then (k, Json.str "[REDACTED]")
     else (k, sanitizeValue v)) :: sanitizeObject fs
termination_by structural l => l

end

/-! ## Core data types (types.ts) -/
inductive EventType where
  | tool_call
  | tool_result
  | session_start
  | session_end
deriving DecidableEq, Repr

structure TokenUsage where
  input : Int
  output : Int
  estimatedCost : ℚ
deriving DecidableEq, Repr

structure ResultInfo where
  success : Bool
  outputPreview : String
deriving DecidableEq, Repr

structure DiaryEvent where
  id : String
  timestamp : String
  sessionId : String
  type : EventType
  toolName : Option String
  toolArgs : Option Json
  result : Option ResultInfo
  tokenUsage : Option TokenUsage
  model : Option String
  duration : Option Int

structure Pricing where
  input : ℚ
  output : ℚ
deriving DecidableEq, Repr

/-- `MODEL_PRICING` — model pricing per 1M tokens (input/output) in USD -/
def MODEL_PRICING : List (String × Pricing) :=
  [("claude-opus-4-6",            { input := 15,   output := 75 }),
   ("claude-sonnet-4-5-20250929", { input := 3,    output := 15 }),
   ("claude-haiku-4-5-20251001",  { input := 0.80, output := 4 }),
   ("claude-sonnet-4-0-20250514", { input := 3,    output := 15 }),
   ("claude-opus-4-0-20250514",   { input := 15,   output := 75 }),
   ("gpt-4o",                     { input := 2.50, output := 10 }),
   ("gpt-4o-mini",                { input := 0.15, output := 0.60 }),
   ("o1",                         { input := 15,   output := 60 }),
   ("o3-mini",                    { input := 1.10, output := 4.40 }),
   ("default",                    { input := 3,    output := 15 })]

/-- `MODEL_PRICING[model] || MODEL_PRICING['default']` (the final `getD`
arm is unreachable: the table contains a `"default"` entry) -/
def pricingFor (model : String) : Pricing :=
  ((MODEL_PRICING.lookup model).orElse
    (fun _ => MODEL_PRICING.lookup "default")).getD { input := 0, output := 0 }

/-- `estimateCost(model, inputTokens, outputTokens)` -/
def estimateCost (model : String) (inputTokens outputTokens : ℚ) : ℚ :=
  let pricing := pricingFor model
  (inputTokens * pricing.input + outputTokens * pricing.output) / 1000000

/-! ## Event loading (`loadEventsForDate`)

The file system and `JSON.parse` are passed explicitly: `file` is the
content of the date's log file (`none` when the file does not exist) and
`parseLine` is the per-line JSON parse (`none` on a parse failure). -/
/-- `content.split('\n')` -/
def splitLinesC : List Char → List (List Char)
  | [] => [[]]
  | c :: cs =>
    if c = '\n' then [] :: splitLinesC cs
    else
      match splitLinesC cs with
      | [] => [[c]]
      | l :: ls => (c :: l) :: ls

/-- `l.trim()` — strip leading and trailing whitespace -/
def trimC (l : List Char) : List Char :=
  ((l.dropWhile isSpaceC).reverse.dropWhile isSpaceC).reverse

/-- `loadEventsForDate`: missing file yields `[]`; otherwise split into
lines, keep non-blank lines, parse each line independently and keep only
the successfully parsed ones -/
def loadEventsForDate (parseLine : List Char → Option DiaryEvent)
    (file : Option (List Char)) : List DiaryEvent :=
  match file with
  | none => []
  | some content =>
    let lines := (splitLinesC content).filter (fun l => !(trimC l).isEmpty)
    lines.filterMap parseLine

/-! ## Config (`loadConfig`)

`DiaryConfig` has exactly the fields of the source interface:
`recordingLevel` and `dataDir` (there is no customPricing field). -/
structure DiaryConfig where
  recordingLevel : Json
  dataDir : Json

/-- field access `raw.field` on a parsed JSON object -/
def jsonField : Json → String → Option Json
  | .obj fs, k => fs.lookup k
  | _, _ => none

/-- JavaScript truthiness of a JSON value -/
def truthy : Json → Bool
  | .str s => !s.isEmpty
  | .num n => n ≠ 0
  | .bool b => b
  | .null => false
  | .arr _ => true
  | .obj _ => true

/-- `x || d` on JSON values -/
def jsOrElse (x : Option Json) (d : Json) : Json :=
  match x with
  | some v => if truthy v then v else d
  | none => d

/-- `loadConfig()`: `raw` is the parsed config file content (`none` when
the file is missing or unparsable); only `recordingLevel` and `dataDir`
are read from it -/
def loadConfig (raw : Option Json) : DiaryConfig :=
  let defaults : DiaryConfig :=
    { recordingLevel := .str "full", dataDir := .str "~/.claw-diary" }
  match raw with
  | none => defaults
  | some r =>
    { recordingLevel := jsOrElse (jsonField r "recordingLevel") defaults.recordingLevel,
      dataDir := jsOrElse (jsonField r "dataDir") defaults.dataDir }

/-! ## The collector's `after` hook

We embed the two computations the claims are about: the FIFO pairing
against the pending-calls state, and the `outputPreview` construction. -/
structure PendingCall where
  timestamp : String
  toolName : String
deriving DecidableEq, Repr

/-- `a.localeCompare(b) ≤ 0` for ISO-8601 ASCII timestamps: plain
lexicographic string order -/
def strLe (a b : String) : Bool := decide (a ≤ b)

/-- `k.startsWith(pre)` (JS `String.prototype.startsWith`) -/
def startsWithC (k pre : String) : Bool := pre.data.isPrefixOf k.data

/-- the timestamp of `pending[k]` (the keys sorted all come from the map,
so the default arm is unreachable) -/
def pendingTs (pending : List (String × PendingCall)) (k : String) : String :=
  (((pending.lookup k).map PendingCall.timestamp).getD "")

/-- the `after` hook's duration computation: filter the pending keys by
the `toolName + ':'` prefix, sort them by the entry timestamps, pair with
the first (earliest) one and delete it; no match leaves the state
unchanged with no duration.  `toMillis` models `new Date(ts).getTime()`
and `nowMs` models `Date.now()`. -/
def afterPending (toMillis : String → Int) (nowMs : Int) (toolName : String)
    (pending : List (String × PendingCall)) :
    Option Int × List (String × PendingCall) :=
  let matchingKeys :=
    ((pending.map Prod.fst).filter (fun k => startsWithC k (toolName ++ ":"))).mergeSort
      (fun a b => strLe (pendingTs pending a) (pendingTs pending b))
  match matchingKeys.head? with
  | none => (none, pending)
  | some key =>
    (some (nowMs - toMillis (pendingTs pending key)),
     pending.eraseP (fun kv => kv.1 == key))

/-! ## `JSON.stringify` and `truncate` (for `outputPreview`) -/
def escapeJsonChar (c : Char) : List Char :=
  if c = '"' then ['\\', '"']
  else if c = '\\' then ['\\', '\\']
  else if c = '\n' then ['\\', 'n']
  else if c = '\t' then ['\\', 't']
  else if c = '\r' then ['\\', 'r']
  else if c = Char.ofNat 8 then ['\\', 'b']
  else if c = Char.ofNat 12 then ['\\', 'f']
  else [c]

def stringifyStr (s : String) : String :=
  String.mk ('"' :: (s.data.flatMap escapeJsonChar) ++ ['"'])

def joinComma : List String → String
  | [] => ""
  | [x] => x
  | x :: xs => x ++ "," ++ joinComma xs

mutual

/-- `JSON.stringify` (no spacing argument) -/
def jsonStringify : Json → String
  | .str s => stringifyStr s
  | .num n => toString n
  | .bool b => if b then "true" else "false"
  | .null => "null"
  | .arr xs => "[" ++ joinComma (jsonStringifyList xs) ++ "]"
  | .obj fs => "\x7b" ++ joinComma (jsonStringifyFields fs) ++ "\x7d"
termination_by structural j => j

def jsonStringifyList : List Json → List String
  | [] => []
  | x :: xs => jsonStringify x :: jsonStringifyList xs
termination_by structural l => l

def jsonStringifyFields : List (String × Json) → List String
  | [] => []
  | (k, v) :: fs => (stringifyStr k ++ ":" ++ jsonStringify v) :: jsonStringifyFields fs
termination_by structural l => l

end

/-- `truncate(text, maxLen = 200)` — `text.slice(0, maxLen) + '...'`
when the text exceeds `maxLen` characters -/
def truncate (text : String) (maxLen : Nat) : String :=
  if text.length ≤ maxLen then text
  else String.mk (text.data.take maxLen) ++ "..."

inductive RecordingLevel where
  | full
  | summary
  | minimal
deriving DecidableEq, Repr

/-- the `outputPreview` built by the `after` hook:
`outputRaw = resultData ? JSON.stringify(sanitizeValue(resultData)) : ''`,
then `'' `if the recording level is `summary`, else `truncate(outputRaw)` -/
def afterOutputPreview (level : RecordingLevel) (resultData : Option Json) : String :=
  let outputRaw :=
    match resultData with
    | some r => jsonStringify (sanitizeValue r)
    | none => ""
  if level = .summary then "" else truncate outputRaw 200

/-! ## Aggregator (`summarizeSession`, summarizer.ts) -/
structure TopTool where
  name : String
  count : Nat
deriving DecidableEq, Repr

structure SessionSummary where
  sessionId : String
  startTime : String
  endTime : String
  duration : Int
  toolCalls : Nat
  tokens : Int
  cost : ℚ
  topTools : List TopTool
  failures : Nat
  description : String
deriving DecidableEq, Repr

/-- `map.set(k, (map.get(k) || 0) + 1)` on a JS `Map` (insertion order
preserved, existing keys updated in place) -/
def bumpCount (key : String) : List (String × Nat) → List (String × Nat)
  | [] => [(key, 1)]
  | (k, n) :: rest =>
    if k = key then (k, n + 1) :: rest else (k, n) :: bumpCount key rest

/-- the tool-frequency map of `summarizeSession` -/
def toolCountsOf (toolCalls : List DiaryEvent) : List (String × Nat) :=
  toolCalls.foldl
    (fun m tc =>
      match tc.toolName with
      | some n => bumpCount n m
      | none => m) []

/-- `[...toolCounts.entries()].sort((a,b) => b[1]-a[1]).slice(0,5)`
(JS `sort` is stable) -/
def topToolsOf (toolCalls : List DiaryEvent) : List TopTool :=
  (((toolCountsOf toolCalls).mergeSort (fun a b => b.2 ≤ a.2)).take 5).map
    (fun p => { name := p.1, count := p.2 })

/-- the description generator (only the parts of its output observable
through `SessionSummary.description`; the phrase rules from the source) -/
def generateSessionDescription (toolCallCount : Nat) (topTools : List TopTool)
    (failureCount : Nat) : String :=
  let toolNames := topTools.map (fun t => String.mk (t.name.data.map lowerC))
  let parts : List String :=
    (if toolNames.any (fun t => hasSub t.data "read".data || hasSub t.data "glob".data ||
        hasSub t.data "grep".data) then ["explored and read code files"] else []) ++
    (if toolNames.any (fun t => hasSub t.data "edit".data || hasSub t.data "write".data)
      then ["wrote and edited files"] else []) ++
    (if toolNames.any (fun t => hasSub t.data "bash".data)
      then ["ran shell commands"] else []) ++
    (if toolNames.any (fun t => hasSub t.data "web".data || hasSub t.data "search".data)
      then ["did web research"] else []) ++
    (if toolNames.any (fun t => hasSub t.data "lsp".data)
      then ["used code intelligence"] else []) ++
    (if toolNames.any (fun t => hasSub t.data "task".data)
      then ["dispatched sub-agents"] else [])
  let parts :=
    if parts.isEmpty then
      ["used " ++ joinCommaSp (topTools.map TopTool.name)] else parts
  let desc := "Made " ++ toString toolCallCount ++ " tool calls. Primarily " ++
    joinCommaSp parts ++ "."
  if 0 < failureCount then
    desc ++ " Encountered " ++ toString failureCount ++
      (if 1 < failureCount then " failures." else " failure.")
  else desc
where
  joinCommaSp : List String → String
    | [] => ""
    | [x] => x
    | x :: xs => x ++ ", " ++ joinCommaSp xs

/-- `summarizeSession(sessionId, events)`.  `events.sort(...)` mutates
the array in place, so every later use of `events` sees the sorted
order; `nowIso` models `new Date().toISOString()` (used only when the
group is empty) and `toMillis` models `new Date(ts).getTime()`. -/
def summarizeSession (toMillis : String → Int) (nowIso : String)
    (sessionId : String) (events : List DiaryEvent) : SessionSummary :=
  let sorted := events.mergeSort (fun a b => strLe a.timestamp b.timestamp)
  let startTime := ((sorted.head?.map DiaryEvent.timestamp).getD nowIso)
  let endTime := (((sorted.getLast?).map DiaryEvent.timestamp).getD startTime)
  let toolCalls := sorted.filter (fun e => e.type == .tool_call)
  let toolResults := sorted.filter (fun e => e.type == .tool_result)
  let failures := toolResults.filter
    (fun e => match e.result with
      | some r => !r.success
      | none => false)
  let topTools := topToolsOf toolCalls
  let tokens := sorted.foldl
    (fun acc e => match e.tokenUsage with
      | some tu => acc + tu.input + tu.output
      | none => acc) 0
  let cost := sorted.foldl
    (fun acc e => match e.tokenUsage with
      | some tu => acc + tu.estimatedCost
      | none => acc) 0
  let durationMs := toMillis endTime - toMillis startTime
  { sessionId := sessionId,
    startTime := startTime,
    endTime := endTime,
    duration := durationMs,
    toolCalls := toolCalls.length,
    tokens := tokens,
    cost := cost,
    topTools := topTools,
    failures := failures.length,
    description := generateSessionDescription toolCalls.length topTools failures.length }

/-- `groupBySession(events)` — a JS `Map` keyed by sessionId, groups in
first-encounter order, events appended in order within each group -/
def groupBySession (events : List DiaryEvent) : List (String × List DiaryEvent) :=
  events.foldl (fun m e => addToGroup e.sessionId e m) []
where
  addToGroup (sid : String) (e : DiaryEvent) :
      List (String × List DiaryEvent) → List (String × List DiaryEvent)
    | [] => [(sid, [e])]
    | (k, es) :: rest =>
      if k = sid then (k, es ++ [e]) :: rest else (k, es) :: addToGroup sid e rest

/-- the per-session summaries of `generateDailySummary` (grouped, each
summarized, then sorted by start time) -/
def daySessionSummaries (toMillis : String → Int) (nowIso : String)
    (events : List DiaryEvent) : List SessionSummary :=
  (((groupBySession events).map
    (fun p => summarizeSession toMillis nowIso p.1 p.2)).mergeSort
    (fun a b => strLe a.startTime b.startTime))

/-! ## Analytics (`generateStats` / `discoverPatterns`, analytics.js) -/
/-- the same bump operation on a `Map` with `Nat` keys -/
def bumpCountN (key : Nat) : List (Nat × Nat) → List (Nat × Nat)
  | [] => [(key, 1)]
  | (k, n) :: rest =>
    if k = key then (k, n + 1) :: rest else (k, n) :: bumpCountN key rest

/-- the session-duration accumulation loop of `generateStats`:
`if (end.duration) { total += end.duration; count++ }` — note the JS
truthiness test excludes an explicit duration of `0` -/
def sessionDurationFold (events : List DiaryEvent) : Int × Nat :=
  (events.filter (fun e => e.type == .session_end)).foldl
    (fun p e =>
      match e.duration with
      | some d => if d ≠ 0 then (p.1 + d, p.2 + 1) else p
      | none => p) (0, 0)

/-- `avgSessionDuration = sessionCount > 0 ? total / sessionCount : 0` -/
def avgSessionDuration (events : List DiaryEvent) : ℚ :=
  let acc := sessionDurationFold events
  if 0 < acc.2 then (acc.1 : ℚ) / (acc.2 : ℚ) else 0

structure DiscoveredPattern where
  description : String
  confidence : ℚ
  suggestion : Option String
deriving DecidableEq, Repr

def dayNames : List String :=
  ["Sunday", "Monday", "Tuesday", "Wednesday", "Thursday", "Friday", "Saturday"]

/-- the day-of-week tool-call activity map (`getDay` models
`new Date(e.timestamp).getDay()`) -/
def dayActivity (getDay : String → Nat) (events : List DiaryEvent) :
    List (Nat × Nat) :=
  events.foldl
    (fun m e => if e.type == .tool_call then bumpCountN (getDay e.timestamp) m else m)
    []

/-- the busiest-weekday heuristic of `discoverPatterns`: sort the
activity entries by count descending (stable), take the first, emit only
when its count exceeds 10 -/
def busiestDayHeuristic (getDay : String → Nat) (events : List DiaryEvent) :
    Option DiscoveredPattern :=
  match ((dayActivity getDay events).mergeSort (fun a b => b.2 ≤ a.2)).head? with
  | none => none
  | some (d, n) =>
    if 10 < n then
      some { description := (dayNames.getD d "") ++ " is your busiest day (" ++
               toString n ++ " tool calls this month).",
             confidence := 0.7,
             suggestion := none }
    else none

/-- the per-tool failed-result count map of `discoverPatterns` -/
def failedToolCounts (events : List DiaryEvent) : List (String × Nat) :=
  events.foldl
    (fun m e =>
      match e.result, e.toolName with
      | some r, some name =>
        if e.type == .tool_result && !r.success then bumpCount name m else m
      | _, _ => m)
    []

/-- the most-failing-tool heuristic of `discoverPatterns`: emit only when
the top failure count exceeds 5 -/
def mostFailedHeuristic (events : List DiaryEvent) : Option DiscoveredPattern :=
  match ((failedToolCounts events).mergeSort (fun a b => b.2 ≤ a.2)).head? with
  | none => none
  | some (name, n) =>
    if 5 < n then
      some { description := name ++ " has the highest failure rate (" ++
               toString n ++ " failures this month).",
             confidence := 0.8,
             suggestion := some ("Review how " ++ name ++
               " is being called — may need parameter adjustments.") }
    else none

/-! ## C5 — custom pricing from the config is not implemented

The spec (and the repository README) state that a `customPricing`
mapping in the config overrides/extends the built-in table.  The source
`loadConfig` reads only `recordingLevel` and `dataDir` (the `DiaryConfig`
interface has no other field), and `estimateCost` consults only the
static `MODEL_PRICING` table, so a configured custom price has no effect. -/
/-- a parsed config file carrying the README's documented
`customPricing` example -/
def rawCustomCfg : Json :=
  .obj [("recordingLevel", .str "full"),
        ("customPricing",
          .obj [("my-fine-tuned-model",
                 .obj [("input", .num 5), ("output", .num 20)])])]

/-- a concrete event used by the C9 witness -/
def witnessEvent : DiaryEvent :=
  { id := "e1", timestamp := "2025-10-01T12:00:00.000Z", sessionId := "s1",
    type := .tool_call, toolName := some "Read", toolArgs := none,
    result := none, tokenUsage := none, model := none, duration := none }

/-! ## C10 — average session duration ignores zero durations -/
/-- the events `generateStats` actually averages over: `session_end`
events whose `duration` is present and nonzero -/
def relevantEnds (events : List DiaryEvent) : List DiaryEvent :=
  events.filter (fun e => e.type == .session_end && e.duration.getD 0 != 0)

/-- concrete 30-day windows exercising the C8 thresholds: one tool call
on one weekday, one failed result of one tool -/
def c8Events : List DiaryEvent :=
  [{ id := "a", timestamp := "2025-10-01T09:00:00.000Z", sessionId := "s",
     type := .tool_call, toolName := some "Bash", toolArgs := none,
     result := none, tokenUsage := none, model := none, duration := none },
   { id := "b", timestamp := "2025-10-01T09:00:01.000Z", sessionId := "s",
     type := .tool_result, toolName := some "Bash", toolArgs := none,
     result := some { success := false, outputPreview := "" },
     tokenUsage := none, model := none, duration := none }]

/-- a concrete pending-calls state for the C7 witness: two pending `Read`
calls, the second one older -/
def c7Pending : List (String × PendingCall) :=
  [("Read:111", { timestamp := "2025-10-01T00:00:05.000Z", toolName := "Read" }),
   ("Read:222", { timestamp := "2025-10-01T00:00:01.000Z", toolName := "Read" }),
   ("Bash:333", { timestamp := "2025-10-01T00:00:00.000Z", toolName := "Bash" })]

/-! ## C4 — `outputPreview` length

The claim says the preview is "truncated to 200 characters, so its
length never exceeds 200 characters".  `truncate` appends a three-char
ellipsis after slicing to 200, so a long serialized result yields a
203-character preview — the claim's bound is off by the ellipsis. -/
/-- a result payload whose sanitized JSON serialization is 301 chars -/
def c4Result : Json := .arr (List.replicate 60 (.bool true))

/-- a session with six tool calls to six distinct tools -/
def c6xEvents : List DiaryEvent :=
  (List.range 6).map (fun i =>
    { id := toString i, timestamp := "2025-10-01T09:00:00.000Z", sessionId := "s",
      type := .tool_call, toolName := some ("tool" ++ toString i), toolArgs := none,
      result := none, tokenUsage := none, model := none, duration := none })

/-- a one-session day used by the C6 witness: one named tool call with
token usage -/
def c6wEvents : List DiaryEvent :=
  [{ id := "a", timestamp := "2025-10-01T09:00:00.000Z", sessionId := "s",
     type := .tool_call, toolName := some "Read", toolArgs := none,
     result := none,
     tokenUsage := some { input := 1000, output := 500, estimatedCost := 0.0525 },
     model := some "claude-opus-4-6", duration := none }]

/-! ## C3 — idempotence of `sanitize`

The string case is the heart of the proof: after one pass of the nine
global replaces, no pattern matches anywhere in the result, so a second
pass is the identity.  The structure of the argument:

* each matcher, on success, consumes a non-empty prefix that is free of
  the bracket characters `[`/`]` (for the PEM pattern: its fixed prefix
  part is bracket-free and the terminator `-----END` is bracket-free),
  and succeeds again on any extension of that consumed prefix;
* the replacement marker `[REDACTED]` starts with `[` and ends with `]`,
  and no matcher can fire at any position inside it;
* consequently a match inside a once-replaced string could be transported
  back to the original string, contradicting the scan. -/
/-- both bracket characters are absent -/
def bracketFree (l : List Char) : Prop := '[' ∉ l ∧ ']' ∉ l

/-! ### Keyword matchers: soundness and refitting -/
/-- the consumed keyword text accepts any continuation -/
def KwFit (kwm : List Char → Option (List Char)) (D : List Char) : Prop :=
  ∀ w, kwm (D ++ w) = some w

/-- the bundled facts a keyword phase must satisfy -/
def KwmSound (kwm : List Char → Option (List Char)) : Prop :=
  ∀ s r, kwm s = some r →
    ∃ D, s = D ++ r ∧ D ≠ [] ∧ bracketFree D ∧ KwFit kwm D

/-! ### Matcher soundness: each successful match consumes a non-empty
bracket-free prefix and succeeds again on any extension of it -/
/-- the bundle of facts needed about patterns 1–8 -/
def MatcherOk (m : List Char → Option (List Char)) : Prop :=
  ∀ s r, m s = some r →
    ∃ D z, s = D ++ z ∧ r <:+ z ∧ D ≠ [] ∧ bracketFree D ∧
      ∀ w, (m (D ++ w)).isSome

/-- the fixed prefix of a PEM match refits against any continuation,
leaving the continuation to `searchEnd` -/
def PemFit (pre : List Char) : Prop := ∀ w, matchPem (pre ++ w) = searchEnd w

/-- every matched region of the scan starts strictly after the position of
the match, so the remainder is a suffix of the tail -/
def ConsumesHead (m : List Char → Option (List Char)) : Prop :=
  ∀ c cs r, m (c :: cs) = some r → r <:+ cs

/-- the scan fires at no position of `s` -/
def Clean (m : List Char → Option (List Char)) (s : List Char) : Prop :=
  ∀ t, t <:+ s → m t = none

/-! ### No pattern fires at a position inside the replacement marker -/
/-- the matcher fails on every proper tail of `[REDACTED]`, whatever
follows it (each pattern needs an opening literal the marker's characters
cannot begin) -/
def MarkerBlocked (m : List Char → Option (List Char)) : Prop :=
  ∀ k, k ≤ 9 → ∀ v, m (List.drop k redactedMarker ++ v) = none

/-- every successful match begins with a nonempty bracket-free region -/
def FireBracketFree (m : List Char → Option (List Char)) : Prop :=
  ∀ u r, m u = some r → ∃ pre, pre ≠ [] ∧ bracketFree pre ∧ pre <+: u

/-! ### C2: no denylisted key keeps a value other than the marker -/
mutual

/-- every object key whose upper-cased form is denylisted (exact set
member, or containing SECRET/PASSWORD/TOKEN/KEY) maps to exactly the
redaction marker, at any nesting depth -/
def noLeakVal : Json → Bool
  | .str _ => true
  | .num _ => true
  | .bool _ => true
  | .null => true
  | .arr xs => noLeakArr xs
  | .obj fs => noLeakObj fs
termination_by structural j => j

def noLeakArr : List Json → Bool
  | [] => true
  | x :: xs => noLeakVal x && noLeakArr xs
termination_by structural l => l

def noLeakObj : List (String × Json) → Bool
  | [] => true
  | (k, v) :: fs =>
    (if isSensitiveKey k then
      match v with
      | .str t => decide (t = "[REDACTED]")
      | _ => false
     else noLeakVal v) && noLeakObj fs
termination_by structural l => l

end

theorem replaceAllGo_irrel (m : List Char → Option (List Char)) :
    ∀ (f1 f2 : Nat) (s : List Char), s.length ≤ f1 → s.length ≤ f2 →
      replaceAllGo m f1 s = replaceAllGo m f2 s := by
  intro f1
  induction f1 with
  | zero =>
    intro f2 s h1 _
    have : s = [] := List.length_eq_zero.mp (Nat.le_zero.mp h1)
    subst this
    cases f2 <;> rfl
  | succ f1 ih =>
    intro f2 s h1 h2
    cases s with
    | nil => cases f2 <;> rfl
    | cons c cs =>
      cases f2 with
      | zero => simp at h2
      | succ f2 =>
        simp only [List.length_cons, Nat.add_le_add_iff_right] at h1 h2
        simp only [replaceAllGo]
        cases hm : m (c :: cs) with
        | none => rw [ih f2 cs h1 h2]
        | some rest =>
          by_cases hg : rest.length ≤ cs.length
          · simp only [if_pos hg, ih f2 rest (le_trans hg h1) (le_trans hg h2)]
          · simp only [if_neg hg, ih f2 cs h1 h2]

/-- the unfolding equation of `replaceAll` on a non-empty list -/
theorem replaceAll_cons (m : List Char → Option (List Char)) (c : Char)
    (cs : List Char) :
    replaceAll m (c :: cs) =
      match m (c :: cs) with
      | some rest =>
        if rest.length ≤ cs.length then redactedMarker ++ replaceAll m rest
        else c :: replaceAll m cs
      | none => c :: replaceAll m cs := by
  show replaceAllGo m (c :: cs).length (c :: cs) = _
  simp only [List.length_cons, replaceAllGo]
  cases hm : m (c :: cs) with
  | none => rfl
  | some rest =>
    by_cases hg : rest.length ≤ cs.length
    · simp only [if_pos hg]
      exact congrArg (redactedMarker ++ ·)
        (replaceAllGo_irrel m cs.length rest.length rest hg (le_refl _))
    · simp only [if_neg hg]
      rfl

/-! # Theorems -/
/-! ## C1 — `estimateCost` arithmetic and pricing resolution -/
/-- **C1**: for every model string and token counts, `estimateCost`
equals `(inputTokens × price.input + outputTokens × price.output) / 1e6`
computed with the pricing-table entry for the model when one exists and
with the table's `default` entry otherwise; in particular
`estimateCost(model, 0, 0) = 0` for every model. -/
theorem claim_C1 :
    (∀ (model : String) (p : Pricing) (i o : ℚ),
      MODEL_PRICING.lookup model = some p →
        estimateCost model i o = (i * p.input + o * p.output) / 1000000) ∧
    (∀ (model : String) (i o : ℚ),
      MODEL_PRICING.lookup model = none →
        ∃ dp : Pricing, MODEL_PRICING.lookup "default" = some dp ∧
          estimateCost model i o = (i * dp.input + o * dp.output) / 1000000) ∧
    (∀ model : String, estimateCost model 0 0 = 0) := by
  refine ⟨?_, ?_, ?_⟩
  · intro model p i o h
    simp [estimateCost, pricingFor, h, Option.orElse]
  · intro model i o h
    refine ⟨{ input := 3, output := 15 }, by rfl, ?_⟩
    simp [estimateCost, pricingFor, h, Option.orElse]
    rfl
  · intro model
    simp [estimateCost]

/-- **C1 witness**: the theorem applied at concrete inputs, with both the
known-model branch and the unknown-model branch exercised. -/
theorem claim_C1_witness :
    (MODEL_PRICING.lookup "gpt-4o" = some { input := 2.5, output := 10 } ∧
      estimateCost "gpt-4o" 1000000 2000000 =
        ((1000000 : ℚ) * 2.5 + 2000000 * 10) / 1000000) ∧
    (MODEL_PRICING.lookup "some-unknown-model" = none ∧
      ∃ dp : Pricing, MODEL_PRICING.lookup "default" = some dp ∧
        estimateCost "some-unknown-model" 10 20 =
          ((10 : ℚ) * dp.input + 20 * dp.output) / 1000000) ∧
    estimateCost "claude-opus-4-6" 0 0 = 0 := by
  have h1 : MODEL_PRICING.lookup "gpt-4o" = some { input := 2.5, output := 10 } := by
    simp [ MODEL_PRICING, List.lookup]
    norm_num
  have h2 : MODEL_PRICING.lookup "some-unknown-model" = none := by
    simp [ MODEL_PRICING, List.lookup]
  exact ⟨⟨h1, claim_C1.1 "gpt-4o" { input := 2.5, output := 10 } 1000000 2000000 h1⟩,
    ⟨h2, claim_C1.2.1 "some-unknown-model" 10 20 h2⟩,
    claim_C1.2.2 "claude-opus-4-6"⟩

/-- **C5** (evidence of the code bug): loading a config that carries a
`customPricing` entry for `my-fine-tuned-model` yields a config with only
`recordingLevel` and `dataDir` (the custom pricing is dropped), and
`estimateCost` prices that model with the built-in `default` entry
($3/M input), not the configured $5/M. -/
theorem claim_C5 :
    loadConfig (some rawCustomCfg) =
      { recordingLevel := Json.str "full", dataDir := Json.str "~/.claw-diary" } ∧
    estimateCost "my-fine-tuned-model" 1000000 0 = 3 := by
  constructor
  · rfl
  · show (1000000 * (pricingFor "my-fine-tuned-model").input +
      0 * (pricingFor "my-fine-tuned-model").output) / 1000000 = 3
    norm_num [pricingFor, Option.orElse]
    rfl

/-! ## C9 — per-line tolerant event loading -/
theorem splitLinesC_no_newline {l : List Char} (h : '\n' ∉ l) :
    splitLinesC l = [l] := by
  induction l with
  | nil => rfl
  | cons c cs ih =>
    have hc : ¬ c = '\n' := fun hh => h (hh ▸ List.mem_cons_self c cs)
    have hcs : '\n' ∉ cs := fun hh => h (List.mem_cons_of_mem c hh)
    simp [splitLinesC, hc, ih hcs]

theorem splitLinesC_append {l1 : List Char} (l2 : List Char) (h : '\n' ∉ l1) :
    splitLinesC (l1 ++ '\n' :: l2) = l1 :: splitLinesC l2 := by
  induction l1 with
  | nil => simp [splitLinesC]
  | cons c cs ih =>
    have hc : ¬ c = '\n' := fun hh => h (hh ▸ List.mem_cons_self c cs)
    have hcs : '\n' ∉ cs := fun hh => h (List.mem_cons_of_mem c hh)
    simp [splitLinesC, hc, ih hcs]

/-- **C9**: loading a missing file returns the empty sequence, and each
line is parsed independently with a parse failure dropping only that
line: a file of one well-formed line followed by one corrupt line loads
to exactly the one parsed event. -/
theorem claim_C9 :
    (∀ parseLine : List Char → Option DiaryEvent,
      loadEventsForDate parseLine none = []) ∧
    (∀ (parseLine : List Char → Option DiaryEvent) (e : DiaryEvent)
       (l1 l2 : List Char),
      parseLine l1 = some e → parseLine l2 = none →
      (trimC l1).isEmpty = false → (trimC l2).isEmpty = false →
      '\n' ∉ l1 → '\n' ∉ l2 →
      loadEventsForDate parseLine (some (l1 ++ '\n' :: l2)) = [e]) := by
  constructor
  · intro parseLine; rfl
  · intro parseLine e l1 l2 hok hbad ht1 ht2 hn1 hn2
    simp only [loadEventsForDate, splitLinesC_append l2 hn1,
      splitLinesC_no_newline hn2]
    simp [List.filter, ht1, ht2, List.filterMap, hok, hbad]

/-- **C9 witness**: the theorem applied to a concrete two-line file whose
second line fails to parse. -/
theorem claim_C9_witness :
    loadEventsForDate
      (fun l => if l = "ok".data then some witnessEvent else none)
      (some ("ok".data ++ '\n' :: "\x7bbad".data)) = [witnessEvent] :=
  claim_C9.2 (fun l => if l = "ok".data then some witnessEvent else none)
    witnessEvent "ok".data "\x7bbad".data (by rfl) (by rfl) (by rfl) (by rfl)
    (by decide) (by decide)

theorem sessionDurationFold_go (l : List DiaryEvent) (t : Int) (c : Nat) :
    l.foldl
      (fun p e =>
        match e.duration with
        | some d => if d ≠ 0 then (p.1 + d, p.2 + 1) else p
        | none => p) (t, c) =
    (t + ((l.filter (fun e => e.duration.getD 0 != 0)).map
        (fun e => e.duration.getD 0)).sum,
     c + (l.filter (fun e => e.duration.getD 0 != 0)).length) := by
  induction l generalizing t c with
  | nil => simp
  | cons e es ih =>
    rw [List.foldl_cons, List.filter_cons]
    cases hd : e.duration with
    | none =>
      simp only [hd, Option.getD_none, bne_self_eq_false, Bool.false_eq_true,
        if_false]
      exact ih t c
    | some d =>
      rcases eq_or_ne d 0 with h0 | h0
      · subst h0
        simp only [hd, ne_eq, not_true_eq_false, if_false, Option.getD_some,
          bne_self_eq_false, Bool.false_eq_true]
        exact ih t c
      · simp only [hd, ne_eq, h0, not_false_eq_true, if_true, Option.getD_some,
          bne_iff_ne, List.map_cons, List.sum_cons, List.length_cons]
        rw [ih (t + d) (c + 1)]
        refine Prod.ext ?_ ?_
        · simp only; ring
        · simp only; omega

/-- **C10**: `avgSessionDuration` averages exactly the `session_end`
events with a present, nonzero `duration`; a `session_end` carrying an
explicit duration of 0 is excluded from numerator and denominator; when
no `session_end` has a nonzero duration the result is exactly 0. -/
theorem claim_C10 (events : List DiaryEvent) :
    (avgSessionDuration events =
      if (relevantEnds events).isEmpty then 0
      else (((relevantEnds events).map (fun e => e.duration.getD 0)).sum : ℚ) /
        ((relevantEnds events).length : ℚ)) ∧
    (∀ e : DiaryEvent, e.type = .session_end → e.duration = some 0 →
      avgSessionDuration (e :: events) = avgSessionDuration events) ∧
    ((∀ e ∈ events, e.type = .session_end → e.duration.getD 0 = 0) →
      avgSessionDuration events = 0) := by
  have key : ∀ evs : List DiaryEvent,
      sessionDurationFold evs =
        (((relevantEnds evs).map (fun e => e.duration.getD 0)).sum,
         (relevantEnds evs).length) := by
    intro evs
    have hfe : relevantEnds evs =
        (evs.filter (fun e => e.type == EventType.session_end)).filter
          (fun e => e.duration.getD 0 != 0) := by
      rw [List.filter_filter, relevantEnds]
      exact List.filter_congr (fun a _ => by rw [Bool.and_comm])
    have := sessionDurationFold_go
      (evs.filter (fun e => e.type == .session_end)) 0 0
    simp only [sessionDurationFold, this, zero_add, Nat.zero_add, hfe]
  refine ⟨?_, ?_, ?_⟩
  · rw [avgSessionDuration, key]
    rcases h : relevantEnds events with _ | ⟨e, es⟩ <;>
      simp [Function.comp_def]
  · intro e he hd
    have : relevantEnds (e :: events) = relevantEnds events := by
      simp [relevantEnds, List.filter, he, hd]
    simp only [avgSessionDuration, key, this]
  · intro h
    have : relevantEnds events = [] := by
      rw [relevantEnds, List.filter_eq_nil_iff]
      intro e he
      simp only [Bool.and_eq_true, beq_iff_eq, bne_iff_ne, ne_eq, not_and,
        Decidable.not_not]
      intro hty
      exact h e he hty
    rw [avgSessionDuration, key, this]
    simp

/-- **C10 witness**: the zero-duration exclusion clauses applied at a
concrete event list (one `session_end` with duration 0, one with 500). -/
theorem claim_C10_witness :
    avgSessionDuration
      [{ id := "a", timestamp := "t1", sessionId := "s", type := .session_end,
         toolName := none, toolArgs := none, result := none, tokenUsage := none,
         model := none, duration := some 0 },
       { id := "b", timestamp := "t2", sessionId := "s", type := .session_end,
         toolName := none, toolArgs := none, result := none, tokenUsage := none,
         model := none, duration := some 500 }] = 500 := by
  rw [(claim_C10 _).1]
  norm_num [relevantEnds, List.filter_cons, show ((500 : Int) != 0) = true from rfl]

/-! ## C8 — pattern-discovery thresholds -/
theorem mem_of_head?_eq {α : Type} {l : List α} {a : α} (h : l.head? = some a) :
    a ∈ l := by
  cases l with
  | nil => simp at h
  | cons x xs => simp at h; simp [h]

/-- **C8**: pattern discovery never emits the busiest-weekday pattern
when every per-weekday tool-call count is at most 10, and never emits the
most-failing-tool pattern when every per-tool failure count is at most 5. -/
theorem claim_C8 (getDay : String → Nat) (events : List DiaryEvent) :
    ((∀ p ∈ dayActivity getDay events, p.2 ≤ 10) →
      busiestDayHeuristic getDay events = none) ∧
    ((∀ p ∈ failedToolCounts events, p.2 ≤ 5) →
      mostFailedHeuristic events = none) := by
  constructor
  · intro h
    rw [busiestDayHeuristic]
    cases hh : ((dayActivity getDay events).mergeSort (fun a b => b.2 ≤ a.2)).head? with
    | none => rfl
    | some dn =>
      obtain ⟨d, n⟩ := dn
      have hmem : (d, n) ∈ dayActivity getDay events :=
        List.mem_mergeSort.mp (mem_of_head?_eq hh)
      have hle : n ≤ 10 := h (d, n) hmem
      simp only [if_neg (by omega : ¬ 10 < n)]
  · intro h
    rw [mostFailedHeuristic]
    cases hh : ((failedToolCounts events).mergeSort (fun a b => b.2 ≤ a.2)).head? with
    | none => rfl
    | some dn =>
      obtain ⟨name, n⟩ := dn
      have hmem : (name, n) ∈ failedToolCounts events :=
        List.mem_mergeSort.mp (mem_of_head?_eq hh)
      have hle : n ≤ 5 := h (name, n) hmem
      simp only [if_neg (by omega : ¬ 5 < n)]

/-- **C8 witness**: the theorem applied at a concrete window whose
per-weekday count (1) and per-tool failure count (1) are below the
thresholds. -/
theorem claim_C8_witness :
    (∀ p ∈ dayActivity (fun _ => 3) c8Events, p.2 ≤ 10) ∧
    busiestDayHeuristic (fun _ => 3) c8Events = none ∧
    (∀ p ∈ failedToolCounts c8Events, p.2 ≤ 5) ∧
    mostFailedHeuristic c8Events = none :=
  ⟨by decide,
   (claim_C8 (fun _ => 3) c8Events).1 (by decide),
   by decide,
   (claim_C8 (fun _ => 3) c8Events).2 (by decide)⟩

/-! ## C7 — FIFO pairing of `after` hooks with pending calls -/
theorem lookup_of_mem_nodup {l : List (String × PendingCall)}
    {kv : String × PendingCall} (hnd : (l.map Prod.fst).Nodup) (hm : kv ∈ l) :
    l.lookup kv.1 = some kv.2 := by
  induction l with
  | nil => simp at hm
  | cons p rest ih =>
    rcases List.mem_cons.mp hm with h | h
    · subst h
      simp [List.lookup]
    · have hne : kv.1 ≠ p.1 := by
        simp only [List.map_cons, List.nodup_cons] at hnd
        intro he
        exact hnd.1 (he ▸ List.mem_map_of_mem Prod.fst h)
      have : (kv.1 == p.1) = false := by simp [hne]
      simp only [List.lookup, this]
      exact ih (by simp only [List.map_cons, List.nodup_cons] at hnd; exact hnd.2) h

theorem eq_of_mem_nodup_same_key {l : List (String × PendingCall)}
    {kv kv2 : String × PendingCall} (hnd : (l.map Prod.fst).Nodup)
    (h1 : kv ∈ l) (h2 : kv2 ∈ l) (he : kv.1 = kv2.1) : kv = kv2 := by
  have e1 := lookup_of_mem_nodup hnd h1
  have e2 := lookup_of_mem_nodup hnd h2
  rw [he, e2] at e1
  refine Prod.ext he ?_
  injection e1 with h
  exact h.symm

/-- **C7**: on an `after` hook for a tool with a non-empty set of pending
entries whose key prefix matches, the collector picks an entry whose
timestamp is least among the matching ones, removes exactly that entry,
and reports duration = now − that entry's start (non-negative when the
entry was recorded no later than now); with no matching entry the
duration is absent and the pending state unchanged. -/
theorem claim_C7 (toMillis : String → Int) (nowMs : Int) (tool : String)
    (pending : List (String × PendingCall))
    (hnd : (pending.map Prod.fst).Nodup) :
    (pending.filter (fun kv => startsWithC kv.1 (tool ++ ":")) = [] →
      afterPending toMillis nowMs tool pending = (none, pending)) ∧
    (pending.filter (fun kv => startsWithC kv.1 (tool ++ ":")) ≠ [] →
      ∃ kv ∈ pending.filter (fun kv => startsWithC kv.1 (tool ++ ":")),
        (afterPending toMillis nowMs tool pending).1 =
          some (nowMs - toMillis kv.2.timestamp) ∧
        (∀ kv2 ∈ pending.filter (fun kv => startsWithC kv.1 (tool ++ ":")),
          kv.2.timestamp ≤ kv2.2.timestamp) ∧
        (afterPending toMillis nowMs tool pending).2 =
          pending.eraseP (fun x => x.1 == kv.1) ∧
        (afterPending toMillis nowMs tool pending).2.length + 1 = pending.length ∧
        (toMillis kv.2.timestamp ≤ nowMs → 0 ≤ nowMs - toMillis kv.2.timestamp)) := by
  have hkeys : (pending.map Prod.fst).filter (fun k => startsWithC k (tool ++ ":")) =
      (pending.filter (fun kv => startsWithC kv.1 (tool ++ ":"))).map Prod.fst :=
    List.filter_map Prod.fst pending
  constructor
  · intro hemp
    rw [afterPending]
    rw [hkeys, hemp]
    simp
  · intro hne
    rw [afterPending, hkeys]
    set matching := pending.filter (fun kv => startsWithC kv.1 (tool ++ ":")) with hmdef
    set le := fun a b => strLe (pendingTs pending a) (pendingTs pending b) with hledef
    set sorted := (matching.map Prod.fst).mergeSort le with hsdef
    have hsor : List.Pairwise (fun a b => le a b = true) sorted := by
      refine List.sorted_mergeSort ?_ ?_ (matching.map Prod.fst)
      · intro a b c hab hbc
        simp only [hledef, strLe, decide_eq_true_eq] at hab hbc ⊢
        exact le_trans hab hbc
      · intro a b
        simp only [hledef, strLe]
        rcases le_total (pendingTs pending a) (pendingTs pending b) with h | h
        · simp [h]
        · simp [h]
    cases hh : sorted.head? with
    | none =>
      exfalso
      have : sorted = [] := by cases hs : sorted <;> simp [hs] at hh ⊢
      have : matching.map Prod.fst = [] :=
        List.Perm.eq_nil (this ▸ (List.mergeSort_perm (matching.map Prod.fst) le).symm)
      exact hne (by simpa using this)
    | some key =>
      have hkm : key ∈ matching.map Prod.fst :=
        List.mem_mergeSort.mp (mem_of_head?_eq hh)
      obtain ⟨kv, hkv, hkeq⟩ := List.mem_map.mp hkm
      have hkvp : kv ∈ pending := List.mem_of_mem_filter hkv
      have hts : pendingTs pending key = kv.2.timestamp := by
        rw [pendingTs, ← hkeq, lookup_of_mem_nodup hnd hkvp]
        rfl
      refine ⟨kv, hkv, ?_, ?_, ?_, ?_, ?_⟩
      · simp only [hh, hts]
      · intro kv2 hkv2
        have hk2m : kv2.1 ∈ sorted := by
          rw [hsdef, List.mem_mergeSort]
          exact List.mem_map_of_mem Prod.fst hkv2
        have hts2 : pendingTs pending kv2.1 = kv2.2.timestamp := by
          rw [pendingTs, lookup_of_mem_nodup hnd (List.mem_of_mem_filter hkv2)]
          rfl
        obtain ⟨rest, hrest⟩ : ∃ rest, sorted = key :: rest := by
          cases hs : sorted with
          | nil => rw [hs] at hh; simp at hh
          | cons x xs => rw [hs] at hh; simp at hh; exact ⟨xs, by rw [hh]⟩
        rcases List.mem_cons.mp (hrest ▸ hk2m) with h | h
        · have : kv = kv2 := eq_of_mem_nodup_same_key hnd hkvp
            (List.mem_of_mem_filter hkv2) (hkeq.trans h.symm)
          rw [this]
        · have := List.rel_of_pairwise_cons (hrest ▸ hsor) h
          simp only [hledef, strLe, decide_eq_true_eq, hts, hts2] at this
          exact this
      · simp only [hh, hkeq]
      · simp only [hh]
        have hpred : (fun x : String × PendingCall => x.1 == key) kv = true := by
          simp [hkeq]
        have := @List.length_eraseP_of_mem _ pending kv
          (fun x : String × PendingCall => x.1 == key) hkvp hpred
        have hlen : 1 ≤ pending.length := by
          cases pending with
          | nil => simp at hkvp
          | cons _ _ => simp
        omega
      · intro h
        omega

/-- **C7 witness**: the theorem applied at a concrete pending state with
two matching entries; the earliest-timestamped one is paired. -/
theorem claim_C7_witness :
    (c7Pending.map Prod.fst).Nodup ∧
    c7Pending.filter (fun kv => startsWithC kv.1 ("Read" ++ ":")) ≠ [] ∧
    ∃ kv ∈ c7Pending.filter (fun kv => startsWithC kv.1 ("Read" ++ ":")),
      (afterPending (fun _ => 1000) 5000 "Read" c7Pending).1 =
        some (5000 - (fun _ => (1000 : Int)) kv.2.timestamp) ∧
      (∀ kv2 ∈ c7Pending.filter (fun kv => startsWithC kv.1 ("Read" ++ ":")),
        kv.2.timestamp ≤ kv2.2.timestamp) ∧
      (afterPending (fun _ => 1000) 5000 "Read" c7Pending).2 =
        c7Pending.eraseP (fun x => x.1 == kv.1) ∧
      (afterPending (fun _ => 1000) 5000 "Read" c7Pending).2.length + 1 =
        c7Pending.length ∧
      ((fun _ => (1000 : Int)) kv.2.timestamp ≤ 5000 →
        0 ≤ 5000 - (fun _ => (1000 : Int)) kv.2.timestamp) :=
  ⟨by decide, by decide,
   (claim_C7 (fun _ => 1000) 5000 "Read" c7Pending (by decide)).2 (by decide)⟩

set_option maxRecDepth 8000 in
/-- **C4 counterexample**: at recording level `full`, a result payload
whose serialization is 301 characters yields an `outputPreview` of 203
characters, exceeding the claimed 200-character bound. -/
theorem claim_C4_counterexample :
    (afterOutputPreview .full (some c4Result)).length = 203 ∧
    ¬ (afterOutputPreview .full (some c4Result)).length ≤ 200 := by
  constructor
  · decide
  · decide

/-- **C4** (amended): at recording level `summary` the preview is the
empty string, as it is at level `full` with no result payload; at level
`full` with a result payload the preview is the JSON serialization of
the sanitized result when that is at most 200 characters, and otherwise
its first 200 characters followed by `'...'` — so the preview length
never exceeds 203 characters. -/
theorem claim_C4 (rd : Option Json) :
    afterOutputPreview .summary rd = "" ∧
    afterOutputPreview .full none = "" ∧
    (afterOutputPreview .full rd).length ≤ 203 ∧
    (∀ r : Json, rd = some r → (jsonStringify (sanitizeValue r)).length ≤ 200 →
      afterOutputPreview .full rd = jsonStringify (sanitizeValue r)) ∧
    (∀ r : Json, rd = some r → 200 < (jsonStringify (sanitizeValue r)).length →
      afterOutputPreview .full rd =
        String.mk ((jsonStringify (sanitizeValue r)).data.take 200) ++ "...") := by
  have hlen : ∀ t : String, (truncate t 200).length ≤ 203 := by
    intro t
    rw [truncate]
    split
    · omega
    · rw [String.length_append]
      have h1 : (String.mk (t.data.take 200)).length = (t.data.take 200).length := rfl
      have h2 : ("..." : String).length = 3 := rfl
      have h3 := List.length_take_le 200 t.data
      omega
  refine ⟨rfl, rfl, ?_, ?_, ?_⟩
  · cases rd with
    | none => decide
    | some r =>
      simp only [afterOutputPreview]
      exact hlen _
  · intro r hr hle
    subst hr
    simp only [afterOutputPreview, truncate, reduceCtorEq, if_false, if_pos hle]
  · intro r hr hgt
    subst hr
    simp only [afterOutputPreview, truncate, reduceCtorEq, if_false,
      if_neg (by omega : ¬ (jsonStringify (sanitizeValue r)).length ≤ 200)]

/-- **C4 witness**: the amended theorem applied at a short concrete
payload (serialization `"hi"` of 4 characters). -/
theorem claim_C4_witness :
    (jsonStringify (sanitizeValue (Json.str "hi"))).length ≤ 200 ∧
    afterOutputPreview .full (some (Json.str "hi")) =
      jsonStringify (sanitizeValue (Json.str "hi")) :=
  ⟨by decide, (claim_C4 (some (Json.str "hi"))).2.2.2.1 (Json.str "hi") rfl (by decide)⟩

/-! ## C6 — per-session tool counts and cost -/
theorem bumpCount_sum (key : String) (m : List (String × Nat)) :
    ((bumpCount key m).map Prod.snd).sum = (m.map Prod.snd).sum + 1 := by
  induction m with
  | nil => simp [bumpCount]
  | cons p rest ih =>
    obtain ⟨k2, n⟩ := p
    rw [bumpCount]
    by_cases h : k2 = key
    · simp only [if_pos h, List.map_cons, List.sum_cons]
      omega
    · simp only [if_neg h, List.map_cons, List.sum_cons, ih]
      omega

theorem bumpCount_keys (key : String) (m : List (String × Nat)) :
    (bumpCount key m).map Prod.fst =
      if key ∈ m.map Prod.fst then m.map Prod.fst
      else m.map Prod.fst ++ [key] := by
  induction m with
  | nil => simp [bumpCount]
  | cons p rest ih =>
    obtain ⟨k2, n⟩ := p
    rw [bumpCount]
    by_cases h : k2 = key
    · subst h
      simp
    · have hne : key ≠ k2 := fun hh => h hh.symm
      simp only [if_neg h, List.map_cons, List.mem_cons, hne, false_or, ih]
      by_cases hm : key ∈ rest.map Prod.fst
      · simp [hm]
      · simp [hm]

theorem bumpCount_keys_toFinset (key : String) (m : List (String × Nat)) :
    ((bumpCount key m).map Prod.fst).toFinset =
      insert key (m.map Prod.fst).toFinset := by
  rw [bumpCount_keys]
  by_cases hm : key ∈ m.map Prod.fst
  · rw [if_pos hm]
    have : key ∈ (m.map Prod.fst).toFinset := List.mem_toFinset.mpr hm
    rw [Finset.insert_eq_self.mpr this]
  · rw [if_neg hm]
    ext a
    simp [or_comm]

theorem bumpCount_keys_nodup (key : String) (m : List (String × Nat))
    (h : (m.map Prod.fst).Nodup) : ((bumpCount key m).map Prod.fst).Nodup := by
  rw [bumpCount_keys]
  by_cases hm : key ∈ m.map Prod.fst
  · rwa [if_pos hm]
  · rw [if_neg hm]
    simp only [List.nodup_append, List.nodup_cons, List.not_mem_nil,
      not_false_eq_true, List.nodup_nil, and_true, true_and]
    refine ⟨h, ?_⟩
    intro a ha hb
    simp only [List.mem_singleton] at hb
    exact hm (hb ▸ ha)

theorem countFold (l : List String) :
    ∀ acc : List (String × Nat),
      (((l.foldl (fun m n => bumpCount n m) acc).map Prod.snd).sum =
        (acc.map Prod.snd).sum + l.length) ∧
      (((l.foldl (fun m n => bumpCount n m) acc).map Prod.fst).toFinset =
        (acc.map Prod.fst).toFinset ∪ l.toFinset) ∧
      ((acc.map Prod.fst).Nodup →
        ((l.foldl (fun m n => bumpCount n m) acc).map Prod.fst).Nodup) := by
  induction l with
  | nil => intro acc; simp
  | cons x xs ih =>
    intro acc
    rw [List.foldl_cons]
    obtain ⟨hsum, hfin, hnd⟩ := ih (bumpCount x acc)
    refine ⟨?_, ?_, ?_⟩
    · rw [hsum, bumpCount_sum]
      simp only [List.length_cons]
      omega
    · rw [hfin, bumpCount_keys_toFinset]
      ext a
      simp only [Finset.mem_union, Finset.mem_insert, List.mem_toFinset,
        List.mem_cons]
      tauto
    · intro h
      exact hnd (bumpCount_keys_nodup x acc h)

theorem toolCountsOf_eq (tcs : List DiaryEvent) :
    toolCountsOf tcs =
      (tcs.filterMap DiaryEvent.toolName).foldl (fun m n => bumpCount n m) [] := by
  rw [toolCountsOf]
  generalize [] = acc
  induction tcs generalizing acc with
  | nil => simp
  | cons e es ih =>
    cases hn : e.toolName with
    | none => simp [List.filterMap_cons, hn, ih]
    | some n => simp [List.filterMap_cons, hn, ih]

theorem toolCountsOf_sum (tcs : List DiaryEvent) :
    ((toolCountsOf tcs).map Prod.snd).sum =
      (tcs.filterMap DiaryEvent.toolName).length := by
  rw [toolCountsOf_eq]
  have := (countFold (tcs.filterMap DiaryEvent.toolName) []).1
  simpa using this

theorem toolCountsOf_keys_card (tcs : List DiaryEvent) :
    (toolCountsOf tcs).length =
      (tcs.filterMap DiaryEvent.toolName).toFinset.card := by
  rw [toolCountsOf_eq]
  obtain ⟨-, hfin, hnd⟩ := countFold (tcs.filterMap DiaryEvent.toolName) []
  have hnd2 := hnd (by simp)
  calc ((tcs.filterMap DiaryEvent.toolName).foldl (fun m n => bumpCount n m) []).length
      = (((tcs.filterMap DiaryEvent.toolName).foldl
          (fun m n => bumpCount n m) []).map Prod.fst).length := by
        rw [List.length_map]
    _ = (((tcs.filterMap DiaryEvent.toolName).foldl
          (fun m n => bumpCount n m) []).map Prod.fst).toFinset.card :=
        (List.toFinset_card_of_nodup hnd2).symm
    _ = (tcs.filterMap DiaryEvent.toolName).toFinset.card := by
        rw [hfin]; simp

theorem sum_take_le {l : List Nat} (n : Nat) : (l.take n).sum ≤ l.sum := by
  conv_rhs => rw [← List.take_append_drop n l]
  rw [List.sum_append]
  omega

theorem topTools_counts (tcs : List DiaryEvent) :
    (topToolsOf tcs).map TopTool.count =
      (((toolCountsOf tcs).mergeSort (fun a b => b.2 ≤ a.2)).take 5).map Prod.snd := by
  rw [topToolsOf, List.map_map]
  rfl

theorem topTools_sum_le (tcs : List DiaryEvent) :
    ((topToolsOf tcs).map TopTool.count).sum ≤ tcs.length := by
  rw [topTools_counts]
  have h1 : ((((toolCountsOf tcs).mergeSort (fun a b => b.2 ≤ a.2)).take 5).map
      Prod.snd).sum ≤
      (((toolCountsOf tcs).mergeSort (fun a b => b.2 ≤ a.2)).map Prod.snd).sum := by
    rw [List.map_take]
    exact sum_take_le 5
  have h2 : (((toolCountsOf tcs).mergeSort (fun a b => b.2 ≤ a.2)).map Prod.snd).sum =
      ((toolCountsOf tcs).map Prod.snd).sum :=
    ((List.mergeSort_perm (toolCountsOf tcs) (fun a b => b.2 ≤ a.2)).map Prod.snd).sum_eq
  have h3 := toolCountsOf_sum tcs
  have h4 := List.length_filterMap_le DiaryEvent.toolName tcs
  omega

theorem filterMap_length_of_all_some (tcs : List DiaryEvent)
    (h : ∀ e ∈ tcs, e.toolName ≠ none) :
    (tcs.filterMap DiaryEvent.toolName).length = tcs.length := by
  induction tcs with
  | nil => rfl
  | cons e es ih =>
    cases hn : e.toolName with
    | none => exact absurd hn (h e (List.mem_cons_self e es))
    | some n =>
      simp only [List.filterMap_cons, hn, List.length_cons]
      rw [ih (fun x hx => h x (List.mem_cons_of_mem e hx))]

theorem topTools_sum_eq (tcs : List DiaryEvent)
    (h5 : (tcs.filterMap DiaryEvent.toolName).toFinset.card ≤ 5)
    (hall : ∀ e ∈ tcs, e.toolName ≠ none) :
    ((topToolsOf tcs).map TopTool.count).sum = tcs.length := by
  rw [topTools_counts]
  have hlen : ((toolCountsOf tcs).mergeSort (fun a b => b.2 ≤ a.2)).length ≤ 5 := by
    rw [(List.mergeSort_perm (toolCountsOf tcs) (fun a b => b.2 ≤ a.2)).length_eq,
      toolCountsOf_keys_card]
    exact h5
  rw [List.take_of_length_le hlen]
  have h2 : (((toolCountsOf tcs).mergeSort (fun a b => b.2 ≤ a.2)).map Prod.snd).sum =
      ((toolCountsOf tcs).map Prod.snd).sum :=
    ((List.mergeSort_perm (toolCountsOf tcs) (fun a b => b.2 ≤ a.2)).map Prod.snd).sum_eq
  rw [h2, toolCountsOf_sum, filterMap_length_of_all_some tcs hall]

theorem cost_fold (l : List DiaryEvent) :
    ∀ acc : ℚ,
      l.foldl
        (fun acc e => match e.tokenUsage with
          | some tu => acc + tu.estimatedCost
          | none => acc) acc =
      acc + ((l.filterMap DiaryEvent.tokenUsage).map TokenUsage.estimatedCost).sum := by
  induction l with
  | nil => intro acc; simp
  | cons e es ih =>
    intro acc
    rw [List.foldl_cons]
    cases ht : e.tokenUsage with
    | none => simp [List.filterMap_cons, ht, ih]
    | some tu =>
      simp only [List.filterMap_cons, ht, List.map_cons, List.sum_cons, ih]
      ring

/-- the properties of one `summarizeSession` result: top-tool counts sum
to at most `toolCalls` (with equality under the stated side conditions)
and `cost` sums `tokenUsage.estimatedCost` over the session's events -/
theorem summarizeSession_props (toMillis : String → Int) (nowIso sid : String)
    (events : List DiaryEvent) :
    ((summarizeSession toMillis nowIso sid events).topTools.map TopTool.count).sum ≤
      (summarizeSession toMillis nowIso sid events).toolCalls ∧
    (summarizeSession toMillis nowIso sid events).cost =
      ((events.filterMap DiaryEvent.tokenUsage).map TokenUsage.estimatedCost).sum ∧
    ((((events.filter (fun e => e.type == EventType.tool_call)).filterMap
        DiaryEvent.toolName).toFinset.card ≤ 5) →
      (∀ e ∈ events, e.type = EventType.tool_call → e.toolName ≠ none) →
      ((summarizeSession toMillis nowIso sid events).topTools.map TopTool.count).sum =
        (summarizeSession toMillis nowIso sid events).toolCalls) := by
  have hperm : (events.mergeSort (fun a b => strLe a.timestamp b.timestamp)).Perm
      events := List.mergeSort_perm events _
  set sorted := events.mergeSort (fun a b => strLe a.timestamp b.timestamp)
    with hsorted
  have htt : (summarizeSession toMillis nowIso sid events).topTools =
      topToolsOf (sorted.filter (fun e => e.type == EventType.tool_call)) := rfl
  have htc : (summarizeSession toMillis nowIso sid events).toolCalls =
      (sorted.filter (fun e => e.type == EventType.tool_call)).length := rfl
  have hco : (summarizeSession toMillis nowIso sid events).cost =
      sorted.foldl
        (fun acc e => match e.tokenUsage with
          | some tu => acc + tu.estimatedCost
          | none => acc) 0 := rfl
  refine ⟨?_, ?_, ?_⟩
  · rw [htt, htc]
    exact topTools_sum_le _
  · rw [hco, cost_fold, zero_add]
    exact ((hperm.filterMap DiaryEvent.tokenUsage).map TokenUsage.estimatedCost).sum_eq
  · intro h5 hall
    rw [htt, htc]
    have hpf : ((sorted.filter (fun e => e.type == EventType.tool_call)).filterMap
        DiaryEvent.toolName).Perm
        ((events.filter (fun e => e.type == EventType.tool_call)).filterMap
          DiaryEvent.toolName) :=
      (hperm.filter (fun e => e.type == EventType.tool_call)).filterMap
        DiaryEvent.toolName
    refine topTools_sum_eq _ ?_ ?_
    · have : ((sorted.filter (fun e => e.type == EventType.tool_call)).filterMap
          DiaryEvent.toolName).toFinset =
          ((events.filter (fun e => e.type == EventType.tool_call)).filterMap
            DiaryEvent.toolName).toFinset := by
        ext a
        simp only [List.mem_toFinset]
        exact hpf.mem_iff
      rw [this]
      exact h5
    · intro e he
      have h1 := List.mem_filter.mp he
      have h2 : e ∈ events := hperm.mem_iff.mp h1.1
      exact hall e h2 (by simpa using h1.2)

/-- **C6** (amended): each per-session summary of a day's events has
top-tool counts summing to at most its `toolCalls` field, with equality
when the session's `tool_call` events use at most 5 distinct tool names
and all carry a `toolName`; the session's `cost` equals the sum of
`tokenUsage.estimatedCost` over the session's events.  (The original
claim's unconditional equality fails: `topTools` keeps only the top 5.) -/
theorem claim_C6 (toMillis : String → Int) (nowIso : String)
    (events : List DiaryEvent) :
    ∀ s ∈ daySessionSummaries toMillis nowIso events,
      ∃ p : String × List DiaryEvent, p ∈ groupBySession events ∧
        s = summarizeSession toMillis nowIso p.1 p.2 ∧
        ((s.topTools.map TopTool.count).sum ≤ s.toolCalls) ∧
        (s.cost =
          ((p.2.filterMap DiaryEvent.tokenUsage).map TokenUsage.estimatedCost).sum) ∧
        (((((p.2.filter (fun e => e.type == EventType.tool_call)).filterMap
            DiaryEvent.toolName).toFinset.card ≤ 5) ∧
          (∀ e ∈ p.2, e.type = EventType.tool_call → e.toolName ≠ none)) →
          (s.topTools.map TopTool.count).sum = s.toolCalls) := by
  intro s hs
  rw [daySessionSummaries] at hs
  have hs2 := List.mem_mergeSort.mp hs
  obtain ⟨p, hp, hps⟩ := List.mem_map.mp hs2
  obtain ⟨hle, hcost, heq⟩ := summarizeSession_props toMillis nowIso p.1 p.2
  exact ⟨p, hp, hps.symm, hps ▸ hle, hps ▸ hcost,
    fun hcond => hps ▸ heq hcond.1 hcond.2⟩

theorem bumpCount_not_mem (key : String) (m : List (String × Nat))
    (h : key ∉ m.map Prod.fst) : bumpCount key m = m ++ [(key, 1)] := by
  induction m with
  | nil => rfl
  | cons p rest ih =>
    obtain ⟨k2, n⟩ := p
    simp only [List.map_cons, List.mem_cons, not_or] at h
    rw [bumpCount, if_neg (fun hh => h.1 hh.symm), ih h.2]
    rfl

theorem countAssoc_all_one :
    ∀ (names : List String) (acc : List (String × Nat)),
      names.Nodup → (∀ p ∈ acc, p.2 = 1) →
      (∀ k ∈ names, k ∉ acc.map Prod.fst) →
      ∀ p ∈ names.foldl (fun m n => bumpCount n m) acc, p.2 = 1 := by
  intro names
  induction names with
  | nil => intro acc _ hacc _ p hp; exact hacc p hp
  | cons x xs ih =>
    intro acc hnd hacc hdis
    rw [List.foldl_cons]
    refine ih (bumpCount x acc) hnd.of_cons ?_ ?_
    · rw [bumpCount_not_mem x acc (hdis x (List.mem_cons_self x xs))]
      intro p hp
      rcases List.mem_append.mp hp with h | h
      · exact hacc p h
      · simp only [List.mem_singleton] at h
        rw [h]
    · intro k hk
      rw [bumpCount_not_mem x acc (hdis x (List.mem_cons_self x xs))]
      simp only [List.map_append, List.mem_append, List.map_cons, List.map_nil,
        List.mem_singleton, not_or]
      constructor
      · exact hdis k (List.mem_cons_of_mem x hk)
      · intro hh
        exact (List.nodup_cons.mp hnd).1 (hh ▸ hk)

theorem toolCounts_all_one (tcs : List DiaryEvent)
    (h : (tcs.filterMap DiaryEvent.toolName).Nodup) :
    ∀ p ∈ toolCountsOf tcs, p.2 = 1 := by
  rw [toolCountsOf_eq]
  exact countAssoc_all_one (tcs.filterMap DiaryEvent.toolName) [] h
    (by intro p hp; simp at hp) (by intro k _ hk; simp at hk)

theorem sum_of_all_one {l : List Nat} (h : ∀ x ∈ l, x = 1) : l.sum = l.length := by
  induction l with
  | nil => rfl
  | cons x xs ih =>
    simp only [List.mem_cons, forall_eq_or_imp] at h
    simp only [List.sum_cons, List.length_cons, h.1, ih h.2]
    omega

/-- **C6 counterexample**: with six distinct tools in one session,
`topTools` (capped at 5) sums to 5 while `toolCalls` is 6, so the
original claim's equality fails on a summary produced by the day
aggregation. -/
theorem claim_C6_counterexample :
    ∃ s ∈ daySessionSummaries (fun _ => 0) "" c6xEvents,
      (s.topTools.map TopTool.count).sum ≠ s.toolCalls := by
  refine ⟨summarizeSession (fun _ => 0) "" "s" c6xEvents, ?_, ?_⟩
  · have h1 : groupBySession c6xEvents = [("s", c6xEvents)] := rfl
    rw [daySessionSummaries, h1, List.map_cons, List.map_nil,
      List.mergeSort_singleton]
    exact List.mem_singleton.mpr rfl
  · have hperm : (c6xEvents.mergeSort (fun a b => strLe a.timestamp b.timestamp)).Perm
        c6xEvents := List.mergeSort_perm c6xEvents _
    set sorted := c6xEvents.mergeSort (fun a b => strLe a.timestamp b.timestamp)
      with hsorted
    set tcs := sorted.filter (fun e => e.type == EventType.tool_call) with htcs
    have hpf : tcs.Perm (c6xEvents.filter (fun e => e.type == EventType.tool_call)) :=
      hperm.filter _
    have hnames : (tcs.filterMap DiaryEvent.toolName).Perm
        ((c6xEvents.filter (fun e => e.type == EventType.tool_call)).filterMap
          DiaryEvent.toolName) := hpf.filterMap _
    have hnames_concrete :
        (c6xEvents.filter (fun e => e.type == EventType.tool_call)).filterMap
          DiaryEvent.toolName =
          ["tool0", "tool1", "tool2", "tool3", "tool4", "tool5"] := rfl
    have htt : (summarizeSession (fun _ => 0) "" "s" c6xEvents).topTools =
        topToolsOf tcs := rfl
    have htc : (summarizeSession (fun _ => 0) "" "s" c6xEvents).toolCalls =
        tcs.length := rfl
    have hlen6 : tcs.length = 6 := by
      rw [hpf.length_eq]
      rfl
    have hnd : (tcs.filterMap DiaryEvent.toolName).Nodup := by
      rw [hnames.nodup_iff, hnames_concrete]
      decide
    have hone := toolCounts_all_one tcs hnd
    have hcount6 : (toolCountsOf tcs).length = 6 := by
      rw [toolCountsOf_keys_card]
      have : (tcs.filterMap DiaryEvent.toolName).toFinset =
          (["tool0", "tool1", "tool2", "tool3", "tool4", "tool5"] :
            List String).toFinset := by
        ext a
        simp only [List.mem_toFinset]
        rw [← hnames_concrete]
        exact hnames.mem_iff
      rw [this]
      decide
    rw [htt, htc, hlen6, topTools_counts]
    have hsum : ((((toolCountsOf tcs).mergeSort (fun a b => b.2 ≤ a.2)).take 5).map
        Prod.snd).sum = 5 := by
      have hall : ∀ x ∈ (((toolCountsOf tcs).mergeSort
          (fun a b => b.2 ≤ a.2)).take 5).map Prod.snd, x = 1 := by
        intro x hx
        obtain ⟨p, hp, hpx⟩ := List.mem_map.mp hx
        have := hone p (List.mem_mergeSort.mp (List.mem_of_mem_take hp))
        omega
      rw [sum_of_all_one hall, List.length_map, List.length_take,
        (List.mergeSort_perm (toolCountsOf tcs) _).length_eq, hcount6]
      rfl
    rw [hsum]
    omega

/-- **C6 witness**: the amended theorem applied to a concrete one-session
day, with the membership hypothesis and the side conditions discharged
by computation. -/
theorem claim_C6_witness :
    ∃ p : String × List DiaryEvent, p ∈ groupBySession c6wEvents ∧
      summarizeSession (fun _ => 0) "" "s" c6wEvents =
        summarizeSession (fun _ => 0) "" p.1 p.2 ∧
      (((summarizeSession (fun _ => 0) "" "s" c6wEvents).topTools.map
          TopTool.count).sum ≤
        (summarizeSession (fun _ => 0) "" "s" c6wEvents).toolCalls) ∧
      ((summarizeSession (fun _ => 0) "" "s" c6wEvents).cost =
        ((p.2.filterMap DiaryEvent.tokenUsage).map TokenUsage.estimatedCost).sum) ∧
      (((((p.2.filter (fun e => e.type == EventType.tool_call)).filterMap
          DiaryEvent.toolName).toFinset.card ≤ 5) ∧
        (∀ e ∈ p.2, e.type = EventType.tool_call → e.toolName ≠ none)) →
        ((summarizeSession (fun _ => 0) "" "s" c6wEvents).topTools.map
            TopTool.count).sum =
          (summarizeSession (fun _ => 0) "" "s" c6wEvents).toolCalls) :=
  claim_C6 (fun _ => 0) "" c6wEvents
    (summarizeSession (fun _ => 0) "" "s" c6wEvents) (by
      have h1 : groupBySession c6wEvents = [("s", c6wEvents)] := rfl
      rw [daySessionSummaries, h1, List.map_cons, List.map_nil,
        List.mergeSort_singleton]
      exact List.mem_singleton.mpr rfl)

theorem litCI_append_of {D kw : List Char} (h : D.map lowerC = kw) :
    ∀ w, litCI kw (D ++ w) = some w := by
  induction D generalizing kw with
  | nil => subst h; intro w; rfl
  | cons c cs ih =>
    subst h
    intro w
    simp only [List.cons_append, List.map_cons, litCI, if_pos rfl]
    exact ih rfl w

theorem litCI_sound {kw : List Char} :
    ∀ {s r : List Char}, litCI kw s = some r → ∃ D, s = D ++ r ∧ D.map lowerC = kw := by
  induction kw with
  | nil =>
    intro s r h
    simp only [litCI, Option.some.injEq] at h
    exact ⟨[], by simp [h]⟩
  | cons k ks ih =>
    intro s r h
    cases s with
    | nil => simp [litCI] at h
    | cons c cs =>
      rw [litCI] at h
      by_cases hc : lowerC c = k
      · rw [if_pos hc] at h
        obtain ⟨D, hD, hmap⟩ := ih h
        exact ⟨c :: D, by simp [hD], by simp [hmap, hc]⟩
      · rw [if_neg hc] at h
        exact absurd h (by simp)

theorem litCS_append (kw : List Char) : ∀ w, litCS kw (kw ++ w) = some w := by
  induction kw with
  | nil => intro w; rfl
  | cons k ks ih =>
    intro w
    simp only [List.cons_append, litCS, if_pos rfl]
    exact ih w

theorem litCS_sound {kw : List Char} :
    ∀ {s r : List Char}, litCS kw s = some r → s = kw ++ r := by
  induction kw with
  | nil =>
    intro s r h
    simp only [litCS, Option.some.injEq] at h
    simp [h]
  | cons k ks ih =>
    intro s r h
    cases s with
    | nil => simp [litCS] at h
    | cons c cs =>
      rw [litCS] at h
      by_cases hc : c = k
      · rw [if_pos hc] at h
        rw [hc, List.cons_append, ih h]
      · rw [if_neg hc] at h
        exact absurd h (by simp)

theorem litCI_nil_none {k : Char} {ks : List Char} : litCI (k :: ks) [] = none := rfl

theorem litCS_nil_none {k : Char} {ks : List Char} : litCS (k :: ks) [] = none := rfl

theorem dropWhile_append_of_all {p : Char → Bool} {a : List Char}
    (h : ∀ c ∈ a, p c = true) (t : List Char) :
    List.dropWhile p (a ++ t) = List.dropWhile p t := by
  induction a with
  | nil => rfl
  | cons c cs ih =>
    simp only [List.cons_append, List.dropWhile_cons,
      h c (List.mem_cons_self c cs), if_true]
    exact ih (fun x hx => h x (List.mem_cons_of_mem c hx))

theorem dropWhile_cons_of_neg {p : Char → Bool} {c : Char} {t : List Char}
    (h : p c = false) : List.dropWhile p (c :: t) = c :: t := by
  simp [List.dropWhile_cons, h]

theorem takeVal_sound {s r : List Char} (h : takeVal s = some r) :
    ∃ v, s = v ++ r ∧ v ≠ [] ∧ (∀ c ∈ v, isValC c = true) := by
  cases s with
  | nil => simp [takeVal] at h
  | cons c cs =>
    rw [takeVal] at h
    by_cases hc : isValC c
    · rw [if_pos hc] at h
      refine ⟨c :: cs.takeWhile isValC, ?_, by simp, ?_⟩
      · simp only [Option.some.injEq] at h
        rw [← h]
        simp [List.takeWhile_append_dropWhile]
      · intro x hx
        rcases List.mem_cons.mp hx with hx | hx
        · rw [hx]; exact hc
        · exact List.mem_takeWhile_imp hx
    · rw [if_neg hc] at h
      exact absurd h (by simp)

theorem takeVal_isSome {v : List Char} (hne : v ≠ [])
    (hall : ∀ c ∈ v, isValC c = true) (w : List Char) :
    (takeVal (v ++ w)).isSome := by
  cases v with
  | nil => exact absurd rfl hne
  | cons c cs =>
    simp only [List.cons_append, takeVal,
      if_pos (hall c (List.mem_cons_self c cs))]
    rfl

theorem bracketFree_nil : bracketFree [] := by simp [bracketFree]

theorem bracketFree_append {a b : List Char} (ha : bracketFree a)
    (hb : bracketFree b) : bracketFree (a ++ b) := by
  simp only [bracketFree, List.mem_append, not_or] at *
  exact ⟨⟨ha.1, hb.1⟩, ⟨ha.2, hb.2⟩⟩

theorem bracketFree_cons {c : Char} {t : List Char} (h1 : c ≠ '[') (h2 : c ≠ ']')
    (ht : bracketFree t) : bracketFree (c :: t) := by
  simp only [bracketFree, List.mem_cons, not_or] at *
  exact ⟨⟨fun h => h1 h.symm, ht.1⟩, ⟨fun h => h2 h.symm, ht.2⟩⟩

theorem bracketFree_of_map_lowerC {D kw : List Char} (h : D.map lowerC = kw)
    (h1 : '[' ∉ kw) (h2 : ']' ∉ kw) : bracketFree D := by
  constructor <;> intro hm
  · exact h1 (h ▸ List.mem_map.mpr ⟨'[', hm, by decide⟩)
  · exact h2 (h ▸ List.mem_map.mpr ⟨']', hm, by decide⟩)

theorem bracketFree_of_all {cls : Char → Bool} {v : List Char}
    (hall : ∀ c ∈ v, cls c = true) (h1 : cls '[' = false) (h2 : cls ']' = false) :
    bracketFree v := by
  constructor <;> intro hm
  · rw [hall '[' hm] at h1; exact Bool.noConfusion h1
  · rw [hall ']' hm] at h2; exact Bool.noConfusion h2

theorem not_space_of_sep {c : Char} (h : sepC c = true) : isSpaceC c = false := by
  simp only [sepC, Bool.or_eq_true, decide_eq_true_eq] at h
  rcases h with h | h <;> subst h <;> decide

theorem not_space_of_quote {c : Char} (h : isQuoteC c = true) :
    isSpaceC c = false := by
  simp only [isQuoteC, Bool.or_eq_true, decide_eq_true_eq] at h
  rcases h with h | h <;> subst h <;> decide

theorem not_space_of_val {c : Char} (h : isValC c = true) : isSpaceC c = false := by
  by_cases hs : isSpaceC c = true
  · simp only [isSpaceC, Bool.or_eq_true, decide_eq_true_eq] at hs
    rcases hs with ((((h5 | h5) | h5) | h5) | h5) | h5 <;> subst h5 <;>
      simp [isValC, isWordC] at h
  · simpa using hs

theorem not_quote_of_val {c : Char} (h : isValC c = true) : isQuoteC c = false := by
  by_cases hq : isQuoteC c = true
  · simp only [isQuoteC, Bool.or_eq_true, decide_eq_true_eq] at hq
    rcases hq with h5 | h5 <;> subst h5 <;> simp [isValC, isWordC] at h
  · simpa using hq

theorem tryKeywords_sound {kws : List (List Char)} {s r : List Char}
    (h : tryKeywords kws s = some r) :
    ∃ k ∈ kws, ∃ D, s = D ++ r ∧ D.map lowerC = k := by
  induction kws with
  | nil => simp [tryKeywords] at h
  | cons k ks ih =>
    rw [tryKeywords] at h
    cases hl : litCI k s with
    | some r2 =>
      rw [hl] at h
      obtain ⟨D, hD, hm⟩ := litCI_sound hl
      simp only [Option.some.injEq] at h
      exact ⟨k, List.mem_cons_self k ks, D, h ▸ hD, hm⟩
    | none =>
      rw [hl] at h
      obtain ⟨k2, hk2, D, hD, hm⟩ := ih h
      exact ⟨k2, List.mem_cons_of_mem k hk2, D, hD, hm⟩

theorem prefix_of_map_eq {D D' w w' : List Char} {k k' : List Char}
    (he : D ++ w = D' ++ w') (hm : D.map lowerC = k) (hm' : D'.map lowerC = k')
    (hlen : D'.length ≤ D.length) : k' <+: k := by
  have hp : D' <+: D :=
    List.prefix_of_prefix_length_le ⟨w', he.symm⟩ ⟨w, rfl⟩ hlen
  rw [← hm, ← hm']
  exact hp.map lowerC

theorem tryKeywords_fit {kws : List (List Char)} {k D : List Char}
    (hk : k ∈ kws) (hD : D.map lowerC = k)
    (hcond : ∀ k1 ∈ kws, ∀ k2 ∈ kws, (k1 <+: k2 ∨ k2 <+: k1) → k1 = k2) :
    KwFit (tryKeywords kws) D := by
  intro w
  induction kws with
  | nil => simp at hk
  | cons k0 ks ih =>
    rw [tryKeywords]
    cases hl : litCI k0 (D ++ w) with
    | some r2 =>
      obtain ⟨D', hD', hm'⟩ := litCI_sound hl
      have hkk : k0 = k := by
        rcases Nat.le_total D'.length D.length with hle | hle
        · exact (hcond k0 (List.mem_cons_self k0 ks) k (hk)
            (Or.inl (prefix_of_map_eq hD' hD hm' hle))).symm ▸ rfl
        · exact hcond k0 (List.mem_cons_self k0 ks) k hk
            (Or.inr (prefix_of_map_eq hD'.symm hm' hD hle))
      have hlen : D'.length = D.length := by
        have l1 : D'.length = k0.length := by rw [← hm', List.length_map]
        have l2 : D.length = k.length := by rw [← hD, List.length_map]
        rw [l1, l2, hkk]
      have hDD : D' = D :=
        List.IsPrefix.eq_of_length
          (List.prefix_of_prefix_length_le ⟨r2, hD'.symm⟩ ⟨w, rfl⟩ (le_of_eq hlen))
          hlen
      have : r2 = w := by
        subst hDD
        exact (List.append_cancel_left hD').symm
      rw [this]
    | none =>
      rcases List.mem_cons.mp hk with hke | hke
      · exfalso
        have := litCI_append_of (hke ▸ hD) w
        rw [this] at hl
        exact Option.noConfusion hl
      · exact ih hke (fun k1 h1 k2 h2 =>
          hcond k1 (List.mem_cons_of_mem k0 h1) k2 (List.mem_cons_of_mem k0 h2))

theorem tryKeywords_kwmSound {kws : List (List Char)}
    (hne : ∀ k ∈ kws, k ≠ [])
    (hbr : ∀ k ∈ kws, '[' ∉ k ∧ ']' ∉ k)
    (hcond : ∀ k1 ∈ kws, ∀ k2 ∈ kws, (k1 <+: k2 ∨ k2 <+: k1) → k1 = k2) :
    KwmSound (tryKeywords kws) := by
  intro s r h
  obtain ⟨k, hk, D, hD, hm⟩ := tryKeywords_sound h
  refine ⟨D, hD, ?_, ?_, tryKeywords_fit hk hm hcond⟩
  · intro hD0
    exact hne k hk (by rw [← hm, hD0]; rfl)
  · exact bracketFree_of_map_lowerC hm (hbr k hk).1 (hbr k hk).2

theorem apiKeyword_kwmSound : KwmSound apiKeyword := by
  intro s r h
  rw [apiKeyword] at h
  cases h1 : litCI "api".data s with
  | none => rw [h1] at h; exact absurd h (by simp)
  | some s1 =>
    rw [h1] at h
    replace h : litCI "key".data (dropDashU s1) = some r := h
    obtain ⟨D1, hD1, hm1⟩ := litCI_sound h1
    obtain ⟨dd, s2, hsplit, hdd, hs2⟩ :
        ∃ dd s2, s1 = dd ++ s2 ∧
          (dd = [] ∨ ∃ d, (d = '_' ∨ d = '-') ∧ dd = [d]) ∧ dropDashU s1 = s2 := by
      cases s1 with
      | nil => exact ⟨[], [], rfl, Or.inl rfl, rfl⟩
      | cons d ds =>
        by_cases hd : (d = '_' || d = '-') = true
        · refine ⟨[d], ds, rfl, ?_, ?_⟩
          · simp only [Bool.or_eq_true, decide_eq_true_eq] at hd
            exact Or.inr ⟨d, hd, rfl⟩
          · rw [dropDashU, if_pos hd]
        · exact ⟨[], d :: ds, rfl, Or.inl rfl, by rw [dropDashU, if_neg hd]⟩
    rw [hs2] at h
    obtain ⟨D2, hD2, hm2⟩ := litCI_sound h
    have hD2ne : D2 ≠ [] := by
      intro hcon
      rw [hcon] at hm2
      simp at hm2
    refine ⟨D1 ++ dd ++ D2, ?_, ?_, ?_, ?_⟩
    · rw [hD1, hsplit, hD2]
      simp [List.append_assoc]
    · intro hcon
      exact hD2ne (List.append_eq_nil.mp hcon).2
    · refine bracketFree_append (bracketFree_append
        (bracketFree_of_map_lowerC hm1 (by decide) (by decide)) ?_)
        (bracketFree_of_map_lowerC hm2 (by decide) (by decide))
      rcases hdd with hdd | ⟨d, hd, hdd⟩
      · subst hdd; exact bracketFree_nil
      · subst hdd
        rcases hd with hd | hd <;> subst hd <;>
          exact bracketFree_cons (by decide) (by decide) bracketFree_nil
    · intro w
      rw [apiKeyword]
      have e1 : (D1 ++ dd ++ D2) ++ w = D1 ++ (dd ++ (D2 ++ w)) := by
        simp [List.append_assoc]
      rw [e1, litCI_append_of hm1]
      have e2 : dropDashU (dd ++ (D2 ++ w)) = D2 ++ w := by
        rcases hdd with hdd | ⟨d, hd, hdd⟩
        · subst hdd
          simp only [List.nil_append]
          cases hD2c : D2 with
          | nil => exact absurd hD2c hD2ne
          | cons c2 cs2 =>
            subst hD2c
            simp only [List.cons_append, dropDashU]
            have hc2 : lowerC c2 = 'k' := by
              have h0 := congrArg List.head? hm2
              simp only [List.map_cons, List.head?_cons] at h0
              exact Option.some.inj h0
            have hne2 : ¬ (c2 = '_' || c2 = '-') = true := by
              intro hcon
              simp only [Bool.or_eq_true, decide_eq_true_eq] at hcon
              rcases hcon with hcon | hcon <;> subst hcon <;>
                exact absurd hc2 (by decide)
            rw [if_neg hne2]
        · subst hdd
          simp only [List.cons_append, List.nil_append, dropDashU]
          rcases hd with hd | hd <;> subst hd <;> rfl
      show litCI "key".data (dropDashU (dd ++ (D2 ++ w))) = some w
      rw [e2, litCI_append_of hm2]

theorem dropQuote_suffix (t : List Char) : dropQuote t <:+ t := by
  cases t with
  | nil => exact List.suffix_refl []
  | cons c cs =>
    rw [dropQuote]
    by_cases hq : isQuoteC c
    · rw [if_pos hq]
      exact ⟨[c], rfl⟩
    · rw [if_neg hq]

theorem sep_not_bracket {c : Char} (h : sepC c = true) : c ≠ '[' ∧ c ≠ ']' := by
  simp only [sepC, Bool.or_eq_true, decide_eq_true_eq] at h
  rcases h with h | h <;> subst h <;> exact ⟨by decide, by decide⟩

theorem quote_not_bracket {c : Char} (h : isQuoteC c = true) : c ≠ '[' ∧ c ≠ ']' := by
  simp only [isQuoteC, Bool.or_eq_true, decide_eq_true_eq] at h
  rcases h with h | h <;> subst h <;> exact ⟨by decide, by decide⟩

theorem matchAssign_ok {kwm : List Char → Option (List Char)}
    (hkw : KwmSound kwm) : MatcherOk (matchAssign kwm) := by
  intro s r h
  cases h1 : kwm s with
  | none => simp only [matchAssign, h1] at h; exact absurd h (by simp)
  | some s1 =>
    simp only [matchAssign, h1] at h
    cases h2 : List.dropWhile isSpaceC s1 with
    | nil => simp only [h2] at h; exact absurd h (by simp)
    | cons c s3 =>
      simp only [h2] at h
      by_cases hc : sepC c = true
      case neg => simp only [if_neg hc] at h; exact absurd h (by simp)
      case pos =>
        simp only [if_pos hc] at h
        cases h3 : takeVal (dropQuote (List.dropWhile isSpaceC s3)) with
        | none => simp only [h3] at h; exact absurd h (by simp)
        | some s6 =>
          simp only [h3, Option.some.injEq] at h
          replace h : dropQuote s6 = r := h
          obtain ⟨D1, hD1, hD1ne, hD1bf, hfit⟩ := hkw s s1 h1
          set a := List.takeWhile isSpaceC s1 with ha
          have hs1 : s1 = a ++ c :: s3 := by
            rw [ha, ← h2, List.takeWhile_append_dropWhile]
          have haSp : ∀ x ∈ a, isSpaceC x = true := fun x hx =>
            List.mem_takeWhile_imp hx
          set b := List.takeWhile isSpaceC s3 with hb
          set s4 := List.dropWhile isSpaceC s3 with hs4
          have hs3 : s3 = b ++ s4 := by
            rw [hb, hs4, List.takeWhile_append_dropWhile]
          have hbSp : ∀ x ∈ b, isSpaceC x = true := fun x hx =>
            List.mem_takeWhile_imp hx
          -- analyse the optional opening quote
          obtain ⟨q, s5, hs4q, hqshape, hdq⟩ :
              ∃ q s5, s4 = q ++ s5 ∧
                (q = [] ∨ ∃ qc, isQuoteC qc = true ∧ q = [qc]) ∧
                dropQuote s4 = s5 := by
            cases hs4c : s4 with
            | nil => exact ⟨[], [], rfl, Or.inl rfl, rfl⟩
            | cons q0 t5 =>
              by_cases hq : isQuoteC q0
              · exact ⟨[q0], t5, rfl, Or.inr ⟨q0, hq, rfl⟩, by rw [dropQuote, if_pos hq]⟩
              · exact ⟨[], q0 :: t5, rfl, Or.inl rfl, by rw [dropQuote, if_neg hq]⟩
          rw [hdq] at h3
          obtain ⟨v, hv, hvne, hvall⟩ := takeVal_sound h3
          refine ⟨D1 ++ a ++ c :: (b ++ q ++ v), s6, ?_, ?_, ?_, ?_, ?_⟩
          · rw [hD1, hs1, hs3, hs4q, hv]
            simp [List.append_assoc]
          · exact h ▸ dropQuote_suffix s6
          · intro hcon
            simp only [List.append_eq_nil] at hcon
            exact List.cons_ne_nil c (b ++ q ++ v) hcon.2
          · refine bracketFree_append (bracketFree_append hD1bf
              (bracketFree_of_all haSp (by decide) (by decide))) ?_
            refine bracketFree_cons (sep_not_bracket hc).1 (sep_not_bracket hc).2 ?_
            refine bracketFree_append (bracketFree_append
              (bracketFree_of_all hbSp (by decide) (by decide)) ?_)
              (bracketFree_of_all hvall (by decide) (by decide))
            rcases hqshape with hq | ⟨qc, hqc, hq⟩
            · subst hq; exact bracketFree_nil
            · subst hq
              exact bracketFree_cons (quote_not_bracket hqc).1
                (quote_not_bracket hqc).2 bracketFree_nil
          · intro w
            have e1 : (D1 ++ a ++ c :: (b ++ q ++ v)) ++ w =
                D1 ++ (a ++ c :: (b ++ q ++ v ++ w)) := by
              simp [List.append_assoc]
            have e2 : List.dropWhile isSpaceC (a ++ c :: (b ++ q ++ v ++ w)) =
                c :: (b ++ q ++ v ++ w) := by
              rw [dropWhile_append_of_all haSp,
                dropWhile_cons_of_neg (not_space_of_sep hc)]
            have e3 : List.dropWhile isSpaceC (b ++ q ++ v ++ w) = q ++ v ++ w := by
              rw [List.append_assoc, List.append_assoc, dropWhile_append_of_all hbSp]
              rcases hqshape with hq | ⟨qc, hqc, hq⟩
              · subst hq
                simp only [List.nil_append]
                cases hvc : v with
                | nil => exact absurd hvc hvne
                | cons v0 vt =>
                  simp only [List.cons_append]
                  rw [dropWhile_cons_of_neg
                    (not_space_of_val (hvall v0 (hvc ▸ List.mem_cons_self v0 vt)))]
              · subst hq
                simp only [List.cons_append, List.nil_append]
                rw [dropWhile_cons_of_neg (not_space_of_quote hqc)]
            have e4 : dropQuote (q ++ v ++ w) = v ++ w := by
              rcases hqshape with hq | ⟨qc, hqc, hq⟩
              · subst hq
                simp only [List.nil_append]
                cases hvc : v with
                | nil => exact absurd hvc hvne
                | cons v0 vt =>
                  simp only [List.cons_append]
                  rw [dropQuote, if_neg (by
                    rw [not_quote_of_val (hvall v0 (hvc ▸ List.mem_cons_self v0 vt))]
                    simp)]
              · subst hq
                simp only [List.cons_append, List.nil_append]
                rw [dropQuote, if_pos hqc]
            simp only [matchAssign, e1, hfit (a ++ c :: (b ++ q ++ v ++ w)), e2]
            rw [if_pos hc]
            simp only [e3, e4]
            have := takeVal_isSome hvne hvall w
            cases htv : takeVal (v ++ w) with
            | none => rw [htv] at this; exact absurd this (by simp)
            | some s7 => simp [htv]

theorem takeWhile_length_le_append {cls : Char → Bool} {v : List Char}
    (hall : ∀ c ∈ v, cls c = true) (w : List Char) :
    v.length ≤ (List.takeWhile cls (v ++ w)).length := by
  induction v with
  | nil => simp
  | cons c cs ih =>
    simp only [List.cons_append, List.takeWhile_cons,
      hall c (List.mem_cons_self c cs), if_true, List.length_cons]
    have := ih (fun x hx => hall x (List.mem_cons_of_mem c hx))
    omega

theorem matchRun_ok {pre : List Char} {cls : Char → Bool} {lo : Nat}
    (hpre : pre ≠ []) (hbf : bracketFree pre)
    (h1 : cls '[' = false) (h2 : cls ']' = false) :
    MatcherOk (matchRun pre cls lo) := by
  intro s r h
  cases hls : litCS pre s with
  | none => simp only [matchRun, hls] at h; exact absurd h (by simp)
  | some t =>
    simp only [matchRun, hls] at h
    by_cases hlo : lo ≤ (List.takeWhile cls t).length
    case neg => rw [if_neg hlo] at h; exact absurd h (by simp)
    case pos =>
      rw [if_pos hlo] at h
      replace h : List.dropWhile cls t = r := by simpa using h
      have hs : s = pre ++ t := litCS_sound hls
      set v := List.takeWhile cls t with hvdef
      have hvall : ∀ c ∈ v, cls c = true := fun c hc => List.mem_takeWhile_imp hc
      refine ⟨pre ++ v, r, ?_, List.suffix_refl r, ?_, ?_, ?_⟩
      · rw [hs, ← h, hvdef, List.append_assoc, List.takeWhile_append_dropWhile]
      · simp only [ne_eq, List.append_eq_nil]
        intro hcon
        exact hpre hcon.1
      · exact bracketFree_append hbf (bracketFree_of_all hvall h1 h2)
      · intro w
        have e1 : (pre ++ v) ++ w = pre ++ (v ++ w) := by simp [List.append_assoc]
        simp only [matchRun, e1, litCS_append pre (v ++ w)]
        rw [if_pos (le_trans hlo (takeWhile_length_le_append hvall w))]
        rfl

theorem matchExact_ok {pre : List Char} {cls : Char → Bool} {n : Nat}
    (hpre : pre ≠ []) (hbf : bracketFree pre)
    (h1 : cls '[' = false) (h2 : cls ']' = false) :
    MatcherOk (matchExact pre cls n) := by
  intro s r h
  cases hls : litCS pre s with
  | none => simp only [matchExact, hls] at h; exact absurd h (by simp)
  | some t =>
    simp only [matchExact, hls] at h
    by_cases hcond : n ≤ t.length ∧ (List.take n t).all cls
    case neg => rw [if_neg hcond] at h; exact absurd h (by simp)
    case pos =>
      rw [if_pos hcond] at h
      replace h : List.drop n t = r := by simpa using h
      have hs : s = pre ++ t := litCS_sound hls
      set v := List.take n t with hvdef
      have hvlen : v.length = n := by
        rw [hvdef, List.length_take]
        omega
      have hvall : ∀ c ∈ v, cls c = true := fun c hc =>
        (List.all_eq_true.mp hcond.2) c hc
      refine ⟨pre ++ v, r, ?_, List.suffix_refl r, ?_, ?_, ?_⟩
      · rw [hs, ← h, hvdef, List.append_assoc, List.take_append_drop]
      · simp only [ne_eq, List.append_eq_nil]
        intro hcon
        exact hpre hcon.1
      · exact bracketFree_append hbf (bracketFree_of_all hvall h1 h2)
      · intro w
        have e1 : (pre ++ v) ++ w = pre ++ (v ++ w) := by simp [List.append_assoc]
        simp only [matchExact, e1, litCS_append pre (v ++ w)]
        have hc1 : n ≤ (v ++ w).length := by
          rw [List.length_append, hvlen]
          omega
        have hc2 : (List.take n (v ++ w)).all cls := by
          have : List.take n (v ++ w) = v := by
            rw [← hvlen, List.take_left]
          rw [this]
          exact List.all_eq_true.mpr hvall
        rw [if_pos ⟨hc1, hc2⟩]
        rfl

theorem pat1_ok : MatcherOk pat1 := matchAssign_ok apiKeyword_kwmSound

theorem pat2_ok : MatcherOk pat2 :=
  matchAssign_ok (tryKeywords_kwmSound (by decide) (by decide) (by decide))

theorem pat3_ok : MatcherOk pat3 :=
  matchAssign_ok (tryKeywords_kwmSound (by decide) (by decide) (by decide))

theorem pat4_ok : MatcherOk pat4 :=
  matchAssign_ok (tryKeywords_kwmSound (by decide) (by decide) (by decide))

theorem pat5_ok : MatcherOk pat5 :=
  matchRun_ok (by decide) ⟨by decide, by decide⟩ (by decide) (by decide)

theorem pat6_ok : MatcherOk pat6 :=
  matchExact_ok (by decide) ⟨by decide, by decide⟩ (by decide) (by decide)

theorem pat7_ok : MatcherOk pat7 :=
  matchExact_ok (by decide) ⟨by decide, by decide⟩ (by decide) (by decide)

theorem pat8_ok : MatcherOk pat8 :=
  matchRun_ok (by decide) ⟨by decide, by decide⟩ (by decide) (by decide)

/-! ### The PEM pattern: its fixed prefix is bracket-free and the lazy
tail ends at the earliest `-----END` -/
theorem searchEnd_sound {s r : List Char} (h : searchEnd s = some r) :
    ∃ mid, s = mid ++ "-----END".data ++ r := by
  induction s with
  | nil => simp [searchEnd] at h
  | cons c cs ih =>
    rw [searchEnd] at h
    cases hl : litCS "-----END".data (c :: cs) with
    | some r2 =>
      simp only [hl, Option.some.injEq] at h
      subst h
      exact ⟨[], by simpa using litCS_sound hl⟩
    | none =>
      simp only [hl] at h
      obtain ⟨mid, hmid⟩ := ih h
      exact ⟨c :: mid, by simp [hmid]⟩

theorem searchEnd_isSome (mid z : List Char) :
    (searchEnd (mid ++ "-----END".data ++ z)).isSome := by
  induction mid with
  | nil =>
    simp only [List.nil_append]
    have e : "-----END".data ++ z = '-' :: ("----END".data ++ z) := rfl
    rw [e, searchEnd, ← e, litCS_append "-----END".data z]
    rfl
  | cons c mid ih =>
    have e : ((c :: mid) ++ "-----END".data) ++ z =
        c :: (mid ++ "-----END".data ++ z) := rfl
    rw [e, searchEnd]
    cases hl : litCS "-----END".data (c :: (mid ++ "-----END".data ++ z)) with
    | some r2 => simp only [hl]; rfl
    | none => simp only [hl]; exact ih

theorem many1Space_sound {s r : List Char} (h : many1Space s = some r) :
    ∃ a, s = a ++ r ∧ a ≠ [] ∧ (∀ c ∈ a, isSpaceC c = true) := by
  cases s with
  | nil => simp [many1Space] at h
  | cons c cs =>
    rw [many1Space] at h
    by_cases hc : isSpaceC c = true
    · rw [if_pos hc] at h
      simp only [Option.some.injEq] at h
      refine ⟨c :: List.takeWhile isSpaceC cs, ?_, by simp, ?_⟩
      · rw [← h]
        simp [List.takeWhile_append_dropWhile]
      · intro x hx
        rcases List.mem_cons.mp hx with hx | hx
        · rw [hx]; exact hc
        · exact List.mem_takeWhile_imp hx
    · rw [if_neg hc] at h
      exact absurd h (by simp)

theorem many1Space_append {a : List Char} (hne : a ≠ [])
    (hall : ∀ c ∈ a, isSpaceC c = true) {t : List Char}
    (ht : List.dropWhile isSpaceC t = t) :
    many1Space (a ++ t) = some t := by
  cases a with
  | nil => exact absurd rfl hne
  | cons c cs =>
    have e : (c :: cs) ++ t = c :: (cs ++ t) := rfl
    rw [e, many1Space, if_pos (hall c (List.mem_cons_self c cs)),
      dropWhile_append_of_all (fun x hx => hall x (List.mem_cons_of_mem c hx)), ht]

theorem matchPem_sound {s r : List Char} (h : matchPem s = some r) :
    ∃ pre mid, s = pre ++ mid ++ "-----END".data ++ r ∧ pre ≠ [] ∧
      bracketFree pre ∧ PemFit pre := by
  cases h1 : litCS "-----BEGIN".data s with
  | none => simp only [matchPem, h1] at h; exact Option.noConfusion h
  | some s1 =>
    simp only [matchPem, h1] at h
    cases h2 : many1Space s1 with
    | none => simp only [h2] at h; exact Option.noConfusion h
    | some s2 =>
      simp only [h2] at h
      cases h3 : litCS "PRIVATE".data (rsaOpt s2) with
      | none => simp only [h3] at h; exact Option.noConfusion h
      | some s3 =>
        simp only [h3] at h
        cases h4 : many1Space s3 with
        | none => simp only [h4] at h; exact Option.noConfusion h
        | some s4 =>
          simp only [h4] at h
          cases h5 : litCS "KEY-----".data s4 with
          | none => simp only [h5] at h; exact Option.noConfusion h
          | some s5 =>
            simp only [h5] at h
            -- dissect all phases of the successful match
            have hs : s = "-----BEGIN".data ++ s1 := litCS_sound h1
            obtain ⟨a, hs1, hane, haSp⟩ := many1Space_sound h2
            -- the optional RSA group
            obtain ⟨rs, hs2, hrs⟩ :
                ∃ rs, s2 = rs ++ rsaOpt s2 ∧
                  (rs = [] ∨ ∃ csp, rs = "RSA".data ++ csp ∧ csp ≠ [] ∧
                    (∀ c ∈ csp, isSpaceC c = true)) := by
              cases hr : litCS "RSA".data s2 with
              | none => exact ⟨[], by simp [rsaOpt, hr], Or.inl rfl⟩
              | some t =>
                cases htc : t with
                | nil => exact ⟨[], by simp [rsaOpt, hr, htc], Or.inl rfl⟩
                | cons c cs =>
                  by_cases hsp : isSpaceC c = true
                  · have hro : rsaOpt s2 = List.dropWhile isSpaceC cs := by
                      simp only [rsaOpt, hr, htc, if_pos hsp]
                    refine ⟨"RSA".data ++ (c :: List.takeWhile isSpaceC cs), ?_,
                      Or.inr ⟨c :: List.takeWhile isSpaceC cs, rfl, by simp, ?_⟩⟩
                    · rw [hro, litCS_sound hr, htc]
                      simp [List.append_assoc, List.takeWhile_append_dropWhile]
                    · intro x hx
                      rcases List.mem_cons.mp hx with hx | hx
                      · rw [hx]; exact hsp
                      · exact List.mem_takeWhile_imp hx
                  · exact ⟨[], by simp [rsaOpt, hr, htc, hsp], Or.inl rfl⟩
            have hprv : rsaOpt s2 = "PRIVATE".data ++ s3 := litCS_sound h3
            obtain ⟨b, hs3, hbne, hbSp⟩ := many1Space_sound h4
            have hkey : s4 = "KEY-----".data ++ s5 := litCS_sound h5
            obtain ⟨mid, hmid⟩ := searchEnd_sound h
            refine ⟨"-----BEGIN".data ++ a ++ rs ++ "PRIVATE".data ++ b ++
              "KEY-----".data, mid, ?_, ?_, ?_, ?_⟩
            · rw [hs, hs1, hs2, hprv, hs3, hkey, hmid]
              simp [List.append_assoc]
            · have hc : ("-----BEGIN".data ++ a ++ rs ++ "PRIVATE".data ++ b ++
                  "KEY-----".data) = '-' :: ("----BEGIN".data ++ a ++ rs ++
                  "PRIVATE".data ++ b ++ "KEY-----".data) := rfl
              rw [hc]
              exact List.cons_ne_nil _ _
            · refine bracketFree_append (bracketFree_append (bracketFree_append
                (bracketFree_append (bracketFree_append ⟨by decide, by decide⟩
                  (bracketFree_of_all haSp (by decide) (by decide))) ?_)
                ⟨by decide, by decide⟩)
                (bracketFree_of_all hbSp (by decide) (by decide)))
                ⟨by decide, by decide⟩
              rcases hrs with hrs | ⟨csp, hrs, hcne, hcSp⟩
              · subst hrs; exact bracketFree_nil
              · subst hrs
                exact bracketFree_append ⟨by decide, by decide⟩
                  (bracketFree_of_all hcSp (by decide) (by decide))
            · intro w
              have e0 : ("-----BEGIN".data ++ a ++ rs ++ "PRIVATE".data ++ b ++
                  "KEY-----".data) ++ w =
                  "-----BEGIN".data ++ (a ++ (rs ++ ("PRIVATE".data ++
                    (b ++ ("KEY-----".data ++ w))))) := by
                simp [List.append_assoc]
              have hPhead : List.dropWhile isSpaceC
                  ("PRIVATE".data ++ (b ++ ("KEY-----".data ++ w))) =
                  "PRIVATE".data ++ (b ++ ("KEY-----".data ++ w)) := by
                have ec : "PRIVATE".data ++ (b ++ ("KEY-----".data ++ w)) =
                    'P' :: ("RIVATE".data ++ (b ++ ("KEY-----".data ++ w))) := rfl
                rw [ec, dropWhile_cons_of_neg (by decide)]
              have l2 : many1Space (a ++ (rs ++ ("PRIVATE".data ++
                  (b ++ ("KEY-----".data ++ w))))) =
                  some (rs ++ ("PRIVATE".data ++ (b ++ ("KEY-----".data ++ w)))) := by
                refine many1Space_append hane haSp ?_
                rcases hrs with hrs2 | ⟨csp, hrs2, hcne, hcSp⟩
                · subst hrs2
                  simpa using hPhead
                · subst hrs2
                  have ec : ("RSA".data ++ csp) ++ ("PRIVATE".data ++
                      (b ++ ("KEY-----".data ++ w))) =
                      'R' :: (("SA".data ++ csp) ++ ("PRIVATE".data ++
                        (b ++ ("KEY-----".data ++ w)))) := rfl
                  rw [ec, dropWhile_cons_of_neg (by decide)]
              have l3 : rsaOpt (rs ++ ("PRIVATE".data ++
                  (b ++ ("KEY-----".data ++ w)))) =
                  "PRIVATE".data ++ (b ++ ("KEY-----".data ++ w)) := by
                rcases hrs with hrs2 | ⟨csp, hrs2, hcne, hcSp⟩
                · subst hrs2
                  have hN : litCS "RSA".data ("PRIVATE".data ++
                      (b ++ ("KEY-----".data ++ w))) = none := rfl
                  simp only [List.nil_append, rsaOpt, hN]
                · subst hrs2
                  cases csp with
                  | nil => exact absurd rfl hcne
                  | cons c0 ctl =>
                    have hR : litCS "RSA".data (("RSA".data ++ (c0 :: ctl)) ++
                        ("PRIVATE".data ++ (b ++ ("KEY-----".data ++ w)))) =
                        some (c0 :: (ctl ++ ("PRIVATE".data ++
                          (b ++ ("KEY-----".data ++ w))))) := by
                      rw [List.append_assoc]
                      exact litCS_append "RSA".data _
                    rw [rsaOpt, hR]
                    show (if isSpaceC c0 = true then
                        List.dropWhile isSpaceC (ctl ++ ("PRIVATE".data ++
                          (b ++ ("KEY-----".data ++ w))))
                      else ("RSA".data ++ (c0 :: ctl)) ++
                        ("PRIVATE".data ++ (b ++ ("KEY-----".data ++ w)))) =
                      "PRIVATE".data ++ (b ++ ("KEY-----".data ++ w))
                    rw [if_pos (hcSp c0 (List.mem_cons_self c0 ctl)),
                      dropWhile_append_of_all
                        (fun x hx => hcSp x (List.mem_cons_of_mem c0 hx))]
                    exact hPhead
              have l5 : many1Space (b ++ ("KEY-----".data ++ w)) =
                  some ("KEY-----".data ++ w) := by
                refine many1Space_append hbne hbSp ?_
                have ec : "KEY-----".data ++ w = 'K' :: ("EY-----".data ++ w) := rfl
                rw [ec, dropWhile_cons_of_neg (by decide)]
              rw [e0]
              simp only [matchPem, litCS_append "-----BEGIN".data, l2, l3,
                litCS_append "PRIVATE".data, l5, litCS_append "KEY-----".data]

/-! ### The scan structure of `replaceAll`: suffixes of the output, the
split of a bracket-free prefix, and preservation of cleanliness -/
/-- a suffix of `A ++ X` is either a proper tail of `A` glued to `X`, or a
suffix of `X` -/
theorem suffix_split {u A X : List Char} (h : u <:+ A ++ X) :
    (∃ k, k < A.length ∧ u = A.drop k ++ X) ∨ u <:+ X := by
  obtain ⟨v, hv⟩ := h
  by_cases hle : A.length ≤ v.length
  · right
    have hu : u = (A ++ X).drop v.length := by
      rw [← hv, List.drop_left]
    rw [List.drop_append_eq_append_drop, List.drop_eq_nil_of_le hle,
      List.nil_append] at hu
    rw [hu]
    exact List.drop_suffix _ _
  · push_neg at hle
    left
    refine ⟨v.length, hle, ?_⟩
    have hu : u = (A ++ X).drop v.length := by
      rw [← hv, List.drop_left]
    rw [List.drop_append_eq_append_drop, Nat.sub_eq_zero_of_le (le_of_lt hle),
      List.drop_zero] at hu
    exact hu

/-- every suffix of the output of a global replace is a tail of the marker
glued to the output of the scan on some suffix of the input (`k = 10`
standing for a whole scan output, the marker tail being empty) -/
theorem suffix_form (m' : List Char → Option (List Char))
    (hm' : ConsumesHead m') :
    ∀ n s u, s.length ≤ n → u <:+ replaceAll m' s →
      ∃ k t, k ≤ 10 ∧ t <:+ s ∧
        u = List.drop k redactedMarker ++ replaceAll m' t := by
  intro n
  induction n with
  | zero =>
    intro s u hlen hu
    have hs : s = [] := List.length_eq_zero.mp (Nat.le_zero.mp hlen)
    subst hs
    have hu' : u = [] := List.suffix_nil.mp hu
    subst hu'
    exact ⟨10, [], by omega, List.suffix_rfl, rfl⟩
  | succ n ih =>
    intro s u hlen hu
    cases s with
    | nil =>
      have hu' : u = [] := List.suffix_nil.mp hu
      subst hu'
      exact ⟨10, [], by omega, List.suffix_rfl, rfl⟩
    | cons c cs =>
      have hlen' : cs.length ≤ n := by
        simpa using Nat.succ_le_succ_iff.mp (by simpa using hlen)
      rw [replaceAll_cons] at hu
      cases hm : m' (c :: cs) with
      | none =>
        simp only [hm] at hu
        rcases List.suffix_cons_iff.mp hu with h | h
        · refine ⟨10, c :: cs, by omega, List.suffix_rfl, ?_⟩
          rw [replaceAll_cons]
          simp only [hm]
          exact h
        · obtain ⟨k, t, hk, ht, he⟩ := ih cs u hlen' h
          exact ⟨k, t, hk, ht.trans (List.suffix_cons c cs), he⟩
      | some rest =>
        simp only [hm] at hu
        by_cases hg : rest.length ≤ cs.length
        · rw [if_pos hg] at hu
          have hrest : rest <:+ cs := hm' c cs rest hm
          rcases suffix_split hu with ⟨k, hk9, he⟩ | h
          · exact ⟨k, rest, by
              have : redactedMarker.length = 10 := rfl
              omega, hrest.trans (List.suffix_cons c cs), he⟩
          · obtain ⟨k, t, hk, ht, he⟩ :=
              ih rest u (le_trans hrest.length_le hlen') h
            exact ⟨k, t, hk, (ht.trans hrest).trans (List.suffix_cons c cs), he⟩
        · rw [if_neg hg] at hu
          rcases List.suffix_cons_iff.mp hu with h | h
          · refine ⟨10, c :: cs, by omega, List.suffix_rfl, ?_⟩
            rw [replaceAll_cons]
            simp only [hm, if_neg hg]
            exact h
          · obtain ⟨k, t, hk, ht, he⟩ := ih cs u hlen' h
            exact ⟨k, t, hk, ht.trans (List.suffix_cons c cs), he⟩

theorem replaceAll_of_clean {m : List Char → Option (List Char)}
    {s : List Char} (h : Clean m s) : replaceAll m s = s := by
  induction s with
  | nil => rfl
  | cons c cs ih =>
    rw [replaceAll_cons]
    have h0 : m (c :: cs) = none := h _ List.suffix_rfl
    simp only [h0]
    rw [ih (fun t ht => h t (ht.trans (List.suffix_cons c cs)))]

/-- a bracket-free prefix of the output of a global replace is copied
verbatim from the input, and the scan of the remainder is the scan of the
corresponding remainder of the input (markers all start with `[`) -/
theorem replaceAll_split (m' : List Char → Option (List Char)) :
    ∀ D s u, bracketFree D → replaceAll m' s = D ++ u →
      ∃ t, s = D ++ t ∧ u = replaceAll m' t := by
  intro D
  induction D with
  | nil =>
    intro s u _ h
    exact ⟨s, rfl, by rw [h]; rfl⟩
  | cons d D' ih =>
    intro s u hbf h
    cases s with
    | nil =>
      rw [show replaceAll m' [] = [] from rfl] at h
      exact absurd h.symm (by simp)
    | cons c cs =>
      rw [replaceAll_cons] at h
      cases hm : m' (c :: cs) with
      | none =>
        simp only [hm, List.cons_append, List.cons.injEq] at h
        obtain ⟨t, ht, hu⟩ := ih cs u
          ⟨fun hx => hbf.1 (List.mem_cons_of_mem d hx),
           fun hx => hbf.2 (List.mem_cons_of_mem d hx)⟩ h.2
        exact ⟨t, by rw [List.cons_append, ← h.1, ht], hu⟩
      | some rest =>
        simp only [hm] at h
        by_cases hg : rest.length ≤ cs.length
        · rw [if_pos hg] at h
          have hd : d = '[' := by
            have := congrArg List.head? h
            simpa [redactedMarker] using this.symm
          exact absurd (hd ▸ List.mem_cons_self d D') hbf.1
        · rw [if_neg hg] at h
          simp only [List.cons_append, List.cons.injEq] at h
          obtain ⟨t, ht, hu⟩ := ih cs u
            ⟨fun hx => hbf.1 (List.mem_cons_of_mem d hx),
             fun hx => hbf.2 (List.mem_cons_of_mem d hx)⟩ h.2
          exact ⟨t, by rw [List.cons_append, ← h.1, ht], hu⟩

theorem pat1_block : MarkerBlocked pat1 := by
  intro k hk v
  interval_cases k <;> rfl

theorem pat2_block : MarkerBlocked pat2 := by
  intro k hk v
  interval_cases k <;> rfl

theorem pat3_block : MarkerBlocked pat3 := by
  intro k hk v
  interval_cases k <;> rfl

theorem pat4_block : MarkerBlocked pat4 := by
  intro k hk v
  interval_cases k <;> rfl

theorem pat5_block : MarkerBlocked pat5 := by
  intro k hk v
  interval_cases k <;> rfl

theorem pat6_block : MarkerBlocked pat6 := by
  intro k hk v
  interval_cases k <;> rfl

theorem pat7_block : MarkerBlocked pat7 := by
  intro k hk v
  interval_cases k <;> rfl

theorem pat8_block : MarkerBlocked pat8 := by
  intro k hk v
  interval_cases k <;> rfl

theorem pat9_block : MarkerBlocked pat9 := by
  intro k hk v
  interval_cases k <;> rfl

/-! ### The per-matcher facts needed by the idempotence argument -/
theorem matcherOk_consumesHead {m : List Char → Option (List Char)}
    (h : MatcherOk m) : ConsumesHead m := by
  intro c cs r hm
  obtain ⟨D, z, hsz, hr, hD, _, _⟩ := h _ _ hm
  cases D with
  | nil => exact absurd rfl hD
  | cons d D' =>
    rw [List.cons_append, List.cons.injEq] at hsz
    have hz : z <:+ cs := by
      rw [hsz.2]; exact List.suffix_append D' z
    exact hr.trans hz

theorem matcherOk_fbf {m : List Char → Option (List Char)}
    (h : MatcherOk m) : FireBracketFree m := by
  intro u r hm
  obtain ⟨D, z, hsz, _, hD, hbf, _⟩ := h _ _ hm
  exact ⟨D, hD, hbf, ⟨z, hsz.symm⟩⟩

theorem matcherOk_crux {m : List Char → Option (List Char)}
    (h : MatcherOk m) (m' : List Char → Option (List Char)) :
    ∀ t, m t = none → m (replaceAll m' t) = none := by
  intro t hnone
  cases hm : m (replaceAll m' t) with
  | none => rfl
  | some r =>
    obtain ⟨D, z, hsz, _, _, hbf, hfit⟩ := h _ _ hm
    obtain ⟨t2, ht2, _⟩ := replaceAll_split m' D t z hbf hsz
    have hfire := hfit t2
    rw [← ht2, hnone] at hfire
    simp at hfire

theorem pat9_consumesHead : ConsumesHead pat9 := by
  intro c cs r hm
  obtain ⟨pre, mid, hs, hpne, _, _⟩ := matchPem_sound hm
  cases pre with
  | nil => exact absurd rfl hpne
  | cons p ps =>
    have hs' : c :: cs =
        p :: (((ps ++ mid) ++ "-----END".data) ++ r) := by
      rw [hs]; simp [List.append_assoc]
    simp only [List.cons.injEq] at hs'
    rw [hs'.2]
    exact List.suffix_append _ r

theorem pat9_fbf : FireBracketFree pat9 := by
  intro u r hm
  obtain ⟨pre, mid, hs, hpne, hpbf, _⟩ := matchPem_sound hm
  refine ⟨pre, hpne, hpbf, ⟨mid ++ ("-----END".data ++ r), ?_⟩⟩
  rw [hs]; simp [List.append_assoc]

theorem pat9_crux (m' : List Char → Option (List Char)) (hm' : ConsumesHead m') :
    ∀ t, pat9 t = none → pat9 (replaceAll m' t) = none := by
  intro t hnone
  cases hm : pat9 (replaceAll m' t) with
  | none => rfl
  | some r =>
    obtain ⟨pre, mid, hs, _, hpbf, hfit⟩ := matchPem_sound hm
    have hs' : replaceAll m' t = pre ++ (mid ++ ("-----END".data ++ r)) := by
      rw [hs]; simp [List.append_assoc]
    obtain ⟨t2, ht2, hu⟩ := replaceAll_split m' pre t _ hpbf hs'
    have hsufEnd : "-----END".data ++ r <:+ replaceAll m' t2 := by
      rw [← hu]; exact List.suffix_append _ _
    obtain ⟨k, t3, hk, ht3, he⟩ :=
      suffix_form m' hm' t2.length t2 _ (le_refl _) hsufEnd
    by_cases hk9 : k ≤ 9
    · exfalso
      interval_cases k <;> simp +decide [redactedMarker] at he
    · have hk10 : k = 10 := by omega
      subst hk10
      have he' : replaceAll m' t3 = "-----END".data ++ r := by
        rw [he]; rfl
      obtain ⟨t4, ht4, _⟩ := replaceAll_split m' "-----END".data t3 r
        ⟨by decide, by decide⟩ he'
      obtain ⟨x, hx⟩ := ht3
      have hSE : (searchEnd t2).isSome := by
        rw [← hx, ht4]
        have := searchEnd_isSome x t4
        simpa [List.append_assoc] using this
      have hnone' : matchPem (pre ++ t2) = none := by
        rw [← ht2]; exact hnone
      rw [hfit t2] at hnone'
      rw [hnone'] at hSE
      simp at hSE

/-! ### Cleanliness after one more global replace -/
theorem cleanStep {m m' : List Char → Option (List Char)}
    (hm' : ConsumesHead m')
    (hblock : MarkerBlocked m) (hfbf : FireBracketFree m)
    (hcrux : ∀ t, m t = none → m (replaceAll m' t) = none)
    {s : List Char} (h : Clean m s ∨ m = m') :
    Clean m (replaceAll m' s) := by
  intro u hu
  obtain ⟨k, t, hk, hts, he⟩ := suffix_form m' hm' s.length s u (le_refl _) hu
  by_cases hk9 : k ≤ 9
  · rw [he]; exact hblock k hk9 _
  · have hk10 : k = 10 := by omega
    subst hk10
    have he' : u = replaceAll m' t := by rw [he]; rfl
    rw [he']
    rcases h with hclean | heq
    · exact hcrux t (hclean t hts)
    · subst heq
      cases hmt : m t with
      | none => exact hcrux t hmt
      | some rest =>
        cases t with
        | nil =>
          obtain ⟨pre, hpne, _, hpre⟩ := hfbf _ _ hmt
          obtain ⟨w, hw⟩ := hpre
          exact absurd (List.append_eq_nil.mp hw).1 hpne
        | cons c cs =>
          have hrest : rest <:+ cs := hm' c cs rest hmt
          have hg : rest.length ≤ cs.length := hrest.length_le
          rw [replaceAll_cons]
          simp only [hmt, if_pos hg]
          cases hfire : m (redactedMarker ++ replaceAll m rest) with
          | none => rfl
          | some r2 =>
            obtain ⟨pre, hpne, hpbf, hpre⟩ := hfbf _ _ hfire
            obtain ⟨w, hw⟩ := hpre
            cases pre with
            | nil => exact absurd rfl hpne
            | cons p ps =>
              have hp : p = '[' := by
                have hhead := congrArg List.head? hw
                simpa [redactedMarker] using hhead
              subst hp
              exact absurd (List.mem_cons_self '[' ps) hpbf.1

/-! ### Cleanliness of the full sanitizer pipeline -/
theorem foldl_clean_preserve
    (m0 : List Char → Option (List Char))
    (h0 : MarkerBlocked m0) (hf : FireBracketFree m0)
    (hc : ∀ m', ConsumesHead m' → ∀ t, m0 t = none → m0 (replaceAll m' t) = none) :
    ∀ (ps : List (List Char → Option (List Char))),
      (∀ m ∈ ps, ConsumesHead m) → ∀ acc, Clean m0 acc →
      Clean m0 (ps.foldl (fun a m => replaceAll m a) acc) := by
  intro ps
  induction ps with
  | nil => intro _ acc h; exact h
  | cons m ps ih =>
    intro hcons acc hacc
    rw [List.foldl_cons]
    exact ih (fun x hx => hcons x (List.mem_cons_of_mem _ hx)) _
      (cleanStep (hcons m (List.mem_cons_self _ _)) h0 hf
        (hc m (hcons m (List.mem_cons_self _ _))) (Or.inl hacc))

theorem foldl_clean_mem
    (m0 : List Char → Option (List Char))
    (h0 : MarkerBlocked m0) (hf : FireBracketFree m0)
    (hc : ∀ m', ConsumesHead m' → ∀ t, m0 t = none → m0 (replaceAll m' t) = none) :
    ∀ (ps : List (List Char → Option (List Char))),
      (∀ m ∈ ps, ConsumesHead m) → m0 ∈ ps → ∀ acc,
      Clean m0 (ps.foldl (fun a m => replaceAll m a) acc) := by
  intro ps
  induction ps with
  | nil => intro _ h; cases h
  | cons m ps ih =>
    intro hcons hmem acc
    rw [List.foldl_cons]
    rcases List.mem_cons.mp hmem with h | h
    · subst h
      exact foldl_clean_preserve m0 h0 hf hc ps
        (fun x hx => hcons x (List.mem_cons_of_mem _ hx)) _
        (cleanStep (hcons m0 (List.mem_cons_self _ _)) h0 hf
          (hc m0 (hcons m0 (List.mem_cons_self _ _))) (Or.inr rfl))
    · exact ih (fun x hx => hcons x (List.mem_cons_of_mem _ hx)) h _

theorem foldl_replaceAll_of_clean :
    ∀ (ps : List (List Char → Option (List Char))) (acc : List Char),
      (∀ m ∈ ps, Clean m acc) →
      ps.foldl (fun a m => replaceAll m a) acc = acc := by
  intro ps
  induction ps with
  | nil => intro acc _; rfl
  | cons m ps ih =>
    intro acc h
    rw [List.foldl_cons, replaceAll_of_clean (h m (List.mem_cons_self m ps))]
    exact ih acc (fun m2 hm2 => h m2 (List.mem_cons_of_mem m hm2))

theorem sens_consumesHead : ∀ m ∈ SENSITIVE_PATTERNS, ConsumesHead m := by
  intro m hm
  simp only [SENSITIVE_PATTERNS, List.mem_cons, List.not_mem_nil, or_false] at hm
  rcases hm with h|h|h|h|h|h|h|h|h
  · subst h; exact matcherOk_consumesHead pat1_ok
  · subst h; exact matcherOk_consumesHead pat2_ok
  · subst h; exact matcherOk_consumesHead pat3_ok
  · subst h; exact matcherOk_consumesHead pat4_ok
  · subst h; exact matcherOk_consumesHead pat5_ok
  · subst h; exact matcherOk_consumesHead pat6_ok
  · subst h; exact matcherOk_consumesHead pat7_ok
  · subst h; exact matcherOk_consumesHead pat8_ok
  · subst h; exact pat9_consumesHead

theorem sens_good : ∀ m ∈ SENSITIVE_PATTERNS, MarkerBlocked m ∧ FireBracketFree m ∧
    ∀ m', ConsumesHead m' → ∀ t, m t = none → m (replaceAll m' t) = none := by
  intro m hm
  simp only [SENSITIVE_PATTERNS, List.mem_cons, List.not_mem_nil, or_false] at hm
  rcases hm with h|h|h|h|h|h|h|h|h
  · subst h
    exact ⟨pat1_block, matcherOk_fbf pat1_ok, fun m' _ => matcherOk_crux pat1_ok m'⟩
  · subst h
    exact ⟨pat2_block, matcherOk_fbf pat2_ok, fun m' _ => matcherOk_crux pat2_ok m'⟩
  · subst h
    exact ⟨pat3_block, matcherOk_fbf pat3_ok, fun m' _ => matcherOk_crux pat3_ok m'⟩
  · subst h
    exact ⟨pat4_block, matcherOk_fbf pat4_ok, fun m' _ => matcherOk_crux pat4_ok m'⟩
  · subst h
    exact ⟨pat5_block, matcherOk_fbf pat5_ok, fun m' _ => matcherOk_crux pat5_ok m'⟩
  · subst h
    exact ⟨pat6_block, matcherOk_fbf pat6_ok, fun m' _ => matcherOk_crux pat6_ok m'⟩
  · subst h
    exact ⟨pat7_block, matcherOk_fbf pat7_ok, fun m' _ => matcherOk_crux pat7_ok m'⟩
  · subst h
    exact ⟨pat8_block, matcherOk_fbf pat8_ok, fun m' _ => matcherOk_crux pat8_ok m'⟩
  · subst h
    exact ⟨pat9_block, pat9_fbf, fun m' hm' => pat9_crux m' hm'⟩

theorem sanitizeChars_clean (s : List Char) :
    ∀ m ∈ SENSITIVE_PATTERNS, Clean m (sanitizeChars s) := by
  intro m hm
  obtain ⟨hb, hf, hc⟩ := sens_good m hm
  exact foldl_clean_mem m hb hf hc SENSITIVE_PATTERNS sens_consumesHead hm s

theorem sanitizeChars_idem (s : List Char) :
    sanitizeChars (sanitizeChars s) = sanitizeChars s :=
  foldl_replaceAll_of_clean SENSITIVE_PATTERNS (sanitizeChars s)
    (sanitizeChars_clean s)

theorem sanitizeString_idem (s : String) :
    sanitizeString (sanitizeString s) = sanitizeString s := by
  have e : ∀ (t : String), sanitizeString t = String.mk (sanitizeChars t.data) :=
    fun _ => rfl
  rw [e s]
  generalize hL : sanitizeChars s.data = l
  have hl : sanitizeChars l = l := by
    rw [← hL]
    exact sanitizeChars_idem s.data
  rw [e (String.mk l), show (String.mk l).data = l from rfl, hl]

mutual

theorem sanitizeValue_idem : ∀ j, sanitizeValue (sanitizeValue j) = sanitizeValue j
  | .str s => congrArg Json.str (sanitizeString_idem s)
  | .num _ => rfl
  | .bool _ => rfl
  | .null => rfl
  | .arr xs => congrArg Json.arr (sanitizeArr_idem xs)
  | .obj fs => congrArg Json.obj (sanitizeObject_idem fs)
termination_by structural j => j

theorem sanitizeArr_idem : ∀ l, sanitizeArr (sanitizeArr l) = sanitizeArr l
  | [] => rfl
  | x :: xs => by
    show sanitizeValue (sanitizeValue x) :: sanitizeArr (sanitizeArr xs) =
      sanitizeValue x :: sanitizeArr xs
    rw [sanitizeValue_idem x, sanitizeArr_idem xs]
termination_by structural l => l

theorem sanitizeObject_idem :
    ∀ l, sanitizeObject (sanitizeObject l) = sanitizeObject l
  | [] => rfl
  | (k, v) :: fs => by
    have e : sanitizeObject ((k, v) :: fs) =
        (if isSensitiveKey k then (k, Json.str "[REDACTED]")
         else (k, sanitizeValue v)) :: sanitizeObject fs := rfl
    rw [e]
    by_cases hk : isSensitiveKey k = true
    · rw [if_pos hk]
      have e2 : sanitizeObject ((k, Json.str "[REDACTED]") :: sanitizeObject fs) =
          (if isSensitiveKey k then (k, Json.str "[REDACTED]")
           else (k, sanitizeValue (Json.str "[REDACTED]"))) ::
            sanitizeObject (sanitizeObject fs) := rfl
      rw [e2, if_pos hk, sanitizeObject_idem fs]
    · rw [if_neg hk]
      have e2 : sanitizeObject ((k, sanitizeValue v) :: sanitizeObject fs) =
          (if isSensitiveKey k then (k, Json.str "[REDACTED]")
           else (k, sanitizeValue (sanitizeValue v))) ::
            sanitizeObject (sanitizeObject fs) := rfl
      rw [e2, if_neg hk, sanitizeValue_idem v, sanitizeObject_idem fs]
termination_by structural l => l

end

/-- C3: `sanitize` is idempotent — for every input value x (string, array,
or arbitrarily nested object), `sanitize(sanitize(x)) == sanitize(x)`. -/
theorem claim_C3 (x : Json) : sanitizeValue (sanitizeValue x) = sanitizeValue x :=
  sanitizeValue_idem x

mutual

theorem noLeak_sanitizeValue : ∀ j, noLeakVal (sanitizeValue j) = true
  | .str _ => rfl
  | .num _ => rfl
  | .bool _ => rfl
  | .null => rfl
  | .arr xs => noLeak_sanitizeArr xs
  | .obj fs => noLeak_sanitizeObject fs
termination_by structural j => j

theorem noLeak_sanitizeArr : ∀ l, noLeakArr (sanitizeArr l) = true
  | [] => rfl
  | x :: xs => by
    show (noLeakVal (sanitizeValue x) && noLeakArr (sanitizeArr xs)) = true
    rw [noLeak_sanitizeValue x, noLeak_sanitizeArr xs]
    rfl
termination_by structural l => l

theorem noLeak_sanitizeObject : ∀ l, noLeakObj (sanitizeObject l) = true
  | [] => rfl
  | (k, v) :: fs => by
    have e : sanitizeObject ((k, v) :: fs) =
        (if isSensitiveKey k then (k, Json.str "[REDACTED]")
         else (k, sanitizeValue v)) :: sanitizeObject fs := rfl
    rw [e]
    by_cases hk : isSensitiveKey k = true
    · rw [if_pos hk]
      show ((if isSensitiveKey k then
          match Json.str "[REDACTED]" with
          | .str t => decide (t = "[REDACTED]")
          | _ => false
        else noLeakVal (Json.str "[REDACTED]")) &&
          noLeakObj (sanitizeObject fs)) = true
      rw [if_pos hk, noLeak_sanitizeObject fs]
      rfl
    · rw [if_neg hk]
      show ((if isSensitiveKey k then
          match sanitizeValue v with
          | .str t => decide (t = "[REDACTED]")
          | _ => false
        else noLeakVal (sanitizeValue v)) &&
          noLeakObj (sanitizeObject fs)) = true
      rw [if_neg hk, noLeak_sanitizeValue v, noLeak_sanitizeObject fs]
      rfl
termination_by structural l => l

end

/-- C2: for every arbitrarily nested input value, in `sanitize`'s output
every object key whose upper-cased form is in the denylist set or contains
SECRET, PASSWORD, TOKEN or KEY as a substring maps to exactly the
redaction marker `[REDACTED]`, at any nesting depth. -/
theorem claim_C2 (x : Json) : noLeakVal (sanitizeValue x) = true :=
  noLeak_sanitizeValue x

end ClawDiary

